import Mathlib

/-!
# IMDBuddy — fuzzy title-matching and rating-resolution pipeline, shallow embedding

This file is a Lean 4 embedding of the core of the IMDBuddy browser
extension: the similarity engine and match selector (`FuzzyMatcher` in the
monolithic content script), and the cache / scheduler / remote-lookup logic
of `ApiService`.  The repository holds two generations of the `ApiService`
code — the monolithic content script (`FuzzyMatcher`/`ApiService` inside the
bundled content script) and the modular `core/api-service.js` — which differ
in several observable ways; both are embedded here, with `mono`/`dist`
naming, so that claims can be settled against the exact code they cite.

Numbers: the JavaScript code uses IEEE doubles; similarity scores are
weighted averages of small rational values, embedded here as `ℚ` with exact
arithmetic.  Strings are embedded as `String`/`List Char`; the JS regex
character classes `\w` and `\s` are the ASCII word characters and the
whitespace characters.
-/

namespace IMDBuddy

/-! ## BASE_CONFIG constants (shared/core/config.js, content-script bundle) -/

/-- `BASE_CONFIG.MIN_MATCH_SCORE = 0.7` (written via `mkRat` so that the
kernel can evaluate comparisons against it). -/
def MIN_MATCH_SCORE : ℚ := mkRat 7 10

theorem MIN_MATCH_SCORE_eq : MIN_MATCH_SCORE = 7/10 := by
  rw [MIN_MATCH_SCORE, Rat.mkRat_eq_div]
  norm_num

/-- `BASE_CONFIG.MAX_CONCURRENT_REQUESTS = 5`. -/
def MAX_CONCURRENT_REQUESTS : ℕ := 5

/-- `BASE_CONFIG.REQUEST_DELAY = 110` (milliseconds). -/
def REQUEST_DELAY : ℕ := 110

/-- `BASE_CONFIG.CACHE_MAX_AGE = 30 * 24 * 60 * 60 * 1000` (milliseconds). -/
def CACHE_MAX_AGE : ℕ := 30 * 24 * 60 * 60 * 1000

/-! ## FuzzyMatcher.normalize

`str.toLowerCase().replace(/[^\w\s]/g, '').replace(/\s+/g, ' ').trim()`
-/

/-- The JS regex class `\w`: ASCII letters, digits and underscore. -/
def isWordChar (c : Char) : Bool := c.isAlphanum || c = '_'

/-- The JS regex class `\s` (whitespace), restricted to the ASCII whitespace
characters that occur in scraped titles. -/
def isSpaceChar (c : Char) : Bool := c.isWhitespace

/-- `replace(/\s+/g, ' ')`: every maximal run of whitespace becomes one
single space. -/
def collapseWS : List Char → List Char
  | [] => []
  | c :: rest =>
    if isSpaceChar c then
      match rest with
      | [] => [' ']
      | r :: _ => if isSpaceChar r then collapseWS rest else ' ' :: collapseWS rest
    else c :: collapseWS rest

/-- `String.prototype.trim()`: strip leading and trailing whitespace. -/
def jsTrim (l : List Char) : List Char :=
  ((l.dropWhile isSpaceChar).reverse.dropWhile isSpaceChar).reverse

/-- `FuzzyMatcher.normalize` on the character list: lowercase, delete the
characters matching `[^\w\s]`, collapse whitespace runs, trim. -/
def normalizeL (l : List Char) : List Char :=
  jsTrim (collapseWS ((l.map Char.toLower).filter (fun c => isWordChar c || isSpaceChar c)))

/-- `FuzzyMatcher.normalize`. -/
def normalize (s : String) : String := ⟨normalizeL s.data⟩

/-! ## FuzzyMatcher.levenshteinDistance / levenshteinSimilarity

The source fills the DP matrix with `matrix[j][i]` = distance between the
length-`i` prefix of `s1` and the length-`j` prefix of `s2`, by
`matrix[j][i] = min(matrix[j-1][i] + 1, matrix[j][i-1] + 1, matrix[j-1][i-1] + cost)`.
The recursion below is that same recurrence expressed on list tails. -/

/-- `FuzzyMatcher.levenshteinDistance`: classic edit distance with unit
insert/delete/substitute costs. -/
def levenshteinDistance : List Char → List Char → ℕ
  | [], ys => ys.length
  | x :: xs, [] => (x :: xs).length
  | x :: xs, y :: ys =>
    min (levenshteinDistance (x :: xs) ys + 1)
      (min (levenshteinDistance xs (y :: ys) + 1)
        (levenshteinDistance xs ys + (if x = y then 0 else 1)))
  termination_by xs ys => xs.length + ys.length

/-- `FuzzyMatcher.levenshteinSimilarity`:
`maxLen == 0 ? 1.0 : 1 - distance / maxLen`. -/
def levenshteinSimilarity (s1 s2 : String) : ℚ :=
  let maxLen := max s1.length s2.length
  if maxLen = 0 then 1 else 1 - (levenshteinDistance s1.data s2.data : ℚ) / maxLen

theorem levenshteinDistance_nil_right (xs : List Char) :
    levenshteinDistance xs [] = xs.length := by
  cases xs <;> simp [levenshteinDistance]

theorem levenshteinDistance_comm (xs ys : List Char) :
    levenshteinDistance xs ys = levenshteinDistance ys xs := by
  induction xs, ys using levenshteinDistance.induct with
  | case1 ys => simp [levenshteinDistance, levenshteinDistance_nil_right]
  | case2 x xs => simp [levenshteinDistance, levenshteinDistance_nil_right]
  | case3 x xs y ys ih1 ih2 ih3 =>
    have hcost : ((if x = y then 0 else 1) : ℕ) = (if y = x then 0 else 1) := by
      by_cases h : x = y
      · simp [h]
      · simp [h, Ne.symm h]
    rw [levenshteinDistance, levenshteinDistance, ih1, ih2, ih3, hcost]
    omega

theorem levenshteinSimilarity_comm (s1 s2 : String) :
    levenshteinSimilarity s1 s2 = levenshteinSimilarity s2 s1 := by
  unfold levenshteinSimilarity
  rw [levenshteinDistance_comm, Nat.max_comm]

/-! ## FuzzyMatcher.substringScore -/

/-- `String.prototype.includes`: contiguous containment of `needle` in
`hay`, scanning left to right. -/
def subIncludes (hay needle : List Char) : Bool :=
  match hay with
  | [] => needle.isEmpty
  | c :: t => needle.isPrefixOf (c :: t) || subIncludes t needle

theorem subIncludes_iff (hay needle : List Char) :
    subIncludes hay needle = true ↔ needle <:+: hay := by
  induction hay with
  | nil => simp [subIncludes, List.isEmpty_iff, List.infix_nil]
  | cons c t ih =>
    rw [subIncludes, Bool.or_eq_true, ih, List.isPrefixOf_iff_prefix,
      List.infix_cons_iff]

/-- The body of the inner loop of `FuzzyMatcher.substringScore`:
`if (longer.includes(substr) && substr.length > maxLen) maxLen = substr.length`,
where `substr = shorter.substring(i, j) = (shorter.drop i).take (j - i)`. -/
def subBody (shorter longer : List Char) (i acc2 j : ℕ) : ℕ :=
  let sub := (shorter.drop i).take (j - i)
  if subIncludes longer sub ∧ acc2 < sub.length then sub.length else acc2

/-- The double loop of `FuzzyMatcher.substringScore`: the length of the
longest substring of `shorter` that `longer` contains (`0` if none).
The outer loop runs `i` over `[0, shorter.length)`, the inner loop runs
`j` over `[i+1, shorter.length]`. -/
def maxCommonSub (shorter longer : List Char) : ℕ :=
  (List.range shorter.length).foldl (fun acc i =>
    (List.range' (i + 1) (shorter.length - i)).foldl (subBody shorter longer i) acc) 0

/-- `FuzzyMatcher.substringScore`: `0.8` when the shorter string is wholly
contained in the longer, otherwise longest-common-substring length over the
longer length. -/
def substringScore (s1 s2 : String) : ℚ :=
  let p := if s2.length < s1.length then (s1.data, s2.data) else (s2.data, s1.data)
  if subIncludes p.1 p.2 then 4/5
  else (maxCommonSub p.2 p.1 : ℚ) / ((max s1.length s2.length : ℕ) : ℚ)

/-! Characterisation of `maxCommonSub` as a maximum over common infixes,
from which its symmetry follows. -/

/-- The candidate value which position `(i, j)` contributes to the running
maximum: the substring length when `longer` contains it, `0` otherwise. -/
def candVal (shorter longer : List Char) (i j : ℕ) : ℕ :=
  if subIncludes longer ((shorter.drop i).take (j - i))
  then ((shorter.drop i).take (j - i)).length else 0

theorem subBody_eq_max (shorter longer : List Char) (i acc2 j : ℕ) :
    subBody shorter longer i acc2 j = max acc2 (candVal shorter longer i j) := by
  unfold subBody candVal
  by_cases hc : subIncludes longer ((shorter.drop i).take (j - i))
  · simp only [hc, true_and, if_true]
    by_cases h2 : acc2 < ((shorter.drop i).take (j - i)).length
    · simp only [h2, if_true]
      omega
    · simp only [h2, if_false]
      omega
  · simp [hc]

theorem le_foldl_max (a : ℕ) (l : List ℕ) : a ≤ l.foldl max a := by
  induction l generalizing a with
  | nil => simp
  | cons x t ih => exact le_trans (Nat.le_max_left a x) (ih (max a x))

theorem mem_le_foldl_max (a x : ℕ) (l : List ℕ) (hx : x ∈ l) : x ≤ l.foldl max a := by
  induction l generalizing a with
  | nil => cases hx
  | cons y t ih =>
    rcases List.mem_cons.mp hx with h | h
    · subst h
      exact le_trans (Nat.le_max_right a x) (le_foldl_max _ _)
    · exact ih _ h

theorem foldl_max_cases (a : ℕ) (l : List ℕ) :
    l.foldl max a = a ∨ l.foldl max a ∈ l := by
  induction l generalizing a with
  | nil => exact Or.inl rfl
  | cons x t ih =>
    rcases ih (max a x) with h | h
    · rcases max_choice a x with hm | hm
      · rw [List.foldl_cons, h, hm]; exact Or.inl rfl
      · rw [List.foldl_cons, h, hm]; exact Or.inr (List.mem_cons_self _ _)
    · exact Or.inr (List.mem_cons_of_mem _ h)

/-- The flattened list of candidate values visited by the double loop. -/
def candidateLens (shorter longer : List Char) : List ℕ :=
  (List.range shorter.length).flatMap (fun i =>
    (List.range' (i + 1) (shorter.length - i)).map (candVal shorter longer i))

theorem foldl_subBody_eq_max (shorter longer : List Char) (i : ℕ) (l : List ℕ) (a : ℕ) :
    l.foldl (subBody shorter longer i) a =
      (l.map (candVal shorter longer i)).foldl max a := by
  induction l generalizing a with
  | nil => rfl
  | cons j t ih =>
    rw [List.foldl_cons, List.map_cons, List.foldl_cons, subBody_eq_max, ih]

theorem foldl_max_append (a : ℕ) (l1 l2 : List ℕ) :
    (l1 ++ l2).foldl max a = l2.foldl max (l1.foldl max a) := List.foldl_append ..

theorem maxCommonSub_eq_foldl (shorter longer : List Char) :
    maxCommonSub shorter longer = (candidateLens shorter longer).foldl max 0 := by
  unfold maxCommonSub candidateLens
  generalize 0 = a
  generalize List.range shorter.length = outer
  induction outer generalizing a with
  | nil => simp
  | cons i rest ih =>
    rw [List.foldl_cons, List.flatMap_cons, foldl_max_append, ← ih,
      foldl_subBody_eq_max]

theorem takeDropIsSub (l : List Char) (i k : ℕ) : (l.drop i).take k <:+: l := by
  refine ⟨l.take i, (l.drop i).drop k, ?_⟩
  rw [List.append_assoc, List.take_append_drop, List.take_append_drop]

theorem subAsTakeDrop {u l : List Char} (h : u <:+: l) :
    ∃ i, i + u.length ≤ l.length ∧ u = (l.drop i).take u.length := by
  obtain ⟨s, t, rfl⟩ := h
  refine ⟨s.length, by rw [List.length_append, List.length_append]; omega, ?_⟩
  rw [List.append_assoc, List.drop_left, List.take_left]

/-- Every common contiguous substring length is at most `maxCommonSub`. -/
theorem maxCommonSub_ge {u a b : List Char} (ha : u <:+: a) (hb : u <:+: b) :
    u.length ≤ maxCommonSub a b := by
  by_cases hne : u = []
  · subst hne; simp
  · have hlen : 0 < u.length := List.length_pos.mpr hne
    rw [maxCommonSub_eq_foldl]
    obtain ⟨i, hi, hu⟩ := subAsTakeDrop ha
    apply mem_le_foldl_max
    unfold candidateLens
    rw [List.mem_flatMap]
    refine ⟨i, List.mem_range.mpr (by omega), ?_⟩
    rw [List.mem_map]
    refine ⟨i + u.length, ?_, ?_⟩
    · rw [List.mem_range'_1]
      omega
    · unfold candVal
      have hj : i + u.length - i = u.length := by omega
      rw [hj, ← hu, if_pos ((subIncludes_iff b u).mpr hb)]

/-- `maxCommonSub` is `0` or the length of some common substring. -/
theorem maxCommonSub_attained (a b : List Char) :
    maxCommonSub a b = 0 ∨
      ∃ u, u <:+: a ∧ u <:+: b ∧ u.length = maxCommonSub a b := by
  have hcases := foldl_max_cases 0 (candidateLens a b)
  rw [← maxCommonSub_eq_foldl] at hcases
  rcases hcases with h | h
  · exact Or.inl h
  · unfold candidateLens at h
    rw [List.mem_flatMap] at h
    obtain ⟨i, _, hmem⟩ := h
    rw [List.mem_map] at hmem
    obtain ⟨j, _, hval⟩ := hmem
    unfold candVal at hval
    by_cases hc : subIncludes b ((a.drop i).take (j - i))
    · refine Or.inr ⟨(a.drop i).take (j - i), takeDropIsSub a i (j - i),
        (subIncludes_iff b _).mp hc, ?_⟩
      rw [← hval, if_pos hc]
    · rw [if_neg hc] at hval
      exact Or.inl hval.symm

theorem maxCommonSub_comm (a b : List Char) : maxCommonSub a b = maxCommonSub b a := by
  have hle : ∀ x y : List Char, maxCommonSub x y ≤ maxCommonSub y x := by
    intro x y
    rcases maxCommonSub_attained x y with h | ⟨u, hx, hy, hu⟩
    · omega
    · rw [← hu]
      exact maxCommonSub_ge hy hx
  exact le_antisymm (hle a b) (hle b a)

theorem subIncludes_comm_of_length {a b : List Char} (h : a.length = b.length) :
    subIncludes a b = subIncludes b a := by
  rcases hab : subIncludes a b with _ | _ <;> rcases hba : subIncludes b a with _ | _
  · rfl
  · have hinf : a <:+: b := (subIncludes_iff b a).mp hba
    have heq : a = b := List.IsInfix.eq_of_length hinf h
    rw [← heq, (subIncludes_iff a a).mpr List.infix_rfl] at hab
    simp at hab
  · have hinf : b <:+: a := (subIncludes_iff a b).mp hab
    have heq : b = a := List.IsInfix.eq_of_length hinf h.symm
    rw [← heq, (subIncludes_iff b b).mpr List.infix_rfl] at hba
    simp at hba
  · rfl

theorem substringScore_comm (s1 s2 : String) :
    substringScore s1 s2 = substringScore s2 s1 := by
  simp only [substringScore]
  rcases Nat.lt_trichotomy s1.length s2.length with h | h | h
  · have hn : ¬ s2.length < s1.length := by omega
    simp only [if_pos h, if_neg hn]
    rw [Nat.max_comm s1.length s2.length]
  · have hn1 : ¬ s2.length < s1.length := by omega
    have hn2 : ¬ s1.length < s2.length := by omega
    have hd : s1.data.length = s2.data.length := h
    simp only [if_neg hn1, if_neg hn2]
    rw [subIncludes_comm_of_length hd, maxCommonSub_comm s1.data s2.data,
      Nat.max_comm s1.length s2.length]
  · have hn : ¬ s1.length < s2.length := by omega
    simp only [if_pos h, if_neg hn]
    rw [Nat.max_comm s1.length s2.length]

/-! ## FuzzyMatcher.jaroSimilarity

The source computes `matchWindow = floor(max(len1, len2) / 2) - 1` (possibly
`-1`, hence embedded as `ℤ`), then greedily matches: for each `i` ascending,
the first index `j` in `[max(0, i - w), min(i + w + 1, len2))` that is still
unmatched and carries the same character.  Transpositions compare the
matched characters of `s1` in `i`-order against the matched characters of
`s2` in `j`-order (the `k`-scan). -/

/-- The inner-loop bounds: `max(0, i - w) ≤ j < min(i + w + 1, len2)`,
with the `0 ≤ j < len2` part supplied by the surrounding `List.range`. -/
def windowOK (w : ℤ) (i j : ℕ) : Prop :=
  (i : ℤ) - w ≤ (j : ℤ) ∧ (j : ℤ) < (i : ℤ) + w + 1

instance (w : ℤ) (i j : ℕ) : Decidable (windowOK w i j) := by
  unfold windowOK
  infer_instance

/-- The inner matching loop for one `i`: the first `j` in the window that is
not yet matched (`s2Matches[j]`) and whose character equals `co`. -/
def findJ (s2 : List Char) (w : ℤ) (marks : Finset ℕ) (i : ℕ) (co : Option Char) :
    Option ℕ :=
  (List.range s2.length).find? (fun j =>
    decide (windowOK w i j) && !(decide (j ∈ marks)) && decide (s2.get? j = co))

/-- The outer matching loop: `marks` is the `s2Matches` array, the result is
the list of matched `(i, j)` pairs in `i`-order. -/
def jaroPairsAux (s1 s2 : List Char) (w : ℤ) : List ℕ → Finset ℕ → List (ℕ × ℕ)
  | [], _ => []
  | i :: rest, marks =>
    match findJ s2 w marks i (s1.get? i) with
    | some j => (i, j) :: jaroPairsAux s1 s2 w rest (insert j marks)
    | none => jaroPairsAux s1 s2 w rest marks

/-- All matched `(i, j)` pairs of the greedy matching pass. -/
def jaroPairs (s1 s2 : List Char) (w : ℤ) : List (ℕ × ℕ) :=
  jaroPairsAux s1 s2 w (List.range s1.length) ∅

/-- The transposition count: matched `s1` characters in `i`-order zipped
against matched `s2` characters in `j`-order (the source's `k`-scan),
counting the positions whose characters differ. -/
def jaroTrans (s1 s2 : List Char) (w : ℤ) : ℕ :=
  let pairs := jaroPairs s1 s2 w
  let m1 := pairs.map (fun p => s1.get? p.1)
  let m2 := ((List.range s2.length).filter
    (fun j => decide (j ∈ pairs.map Prod.snd))).map (fun j => s2.get? j)
  ((m1.zip m2).filter (fun q => decide (q.1 ≠ q.2))).length

/-- `FuzzyMatcher.jaroSimilarity`. -/
def jaroSimilarity (s1 s2 : String) : ℚ :=
  if s1.length = 0 ∧ s2.length = 0 then 1
  else if s1.length = 0 ∨ s2.length = 0 then 0
  else
    let w : ℤ := ((max s1.length s2.length : ℕ) : ℤ) / 2 - 1
    let nMatches := (jaroPairs s1.data s2.data w).length
    if nMatches = 0 then 0
    else ((nMatches : ℚ) / s1.length + (nMatches : ℚ) / s2.length
      + ((nMatches : ℚ) - (jaroTrans s1.data s2.data w : ℚ) / 2) / (nMatches : ℚ)) / 3

/-! ### Symmetry of the Jaro matching pass

The greedy matching decomposes per character class into a two-pointer merge,
which is manifestly symmetric; the development below makes that precise. -/

theorem find?_congrP {α : Type} (l : List α) (p q : α → Bool)
    (h : ∀ x ∈ l, p x = q x) : l.find? p = l.find? q := by
  induction l with
  | nil => rfl
  | cons a t ih =>
    rcases hpa : p a with _ | _
    · rw [List.find?_cons_of_neg t (by simp [hpa]),
        List.find?_cons_of_neg t (by simp [← h a (List.mem_cons_self a t), hpa]),
        ih (fun x hx => h x (List.mem_cons_of_mem a hx))]
    · rw [List.find?_cons_of_pos t hpa,
        List.find?_cons_of_pos t (by rw [← h a (List.mem_cons_self a t), hpa])]

theorem find?_filter {α : Type} (l : List α) (p q : α → Bool) :
    (l.filter q).find? p = l.find? (fun x => p x && q x) := by
  induction l with
  | nil => rfl
  | cons a t ih =>
    rcases hqa : q a with _ | _
    · rw [List.filter_cons_of_neg (by simp [hqa]),
        List.find?_cons_of_neg t (by simp [hqa]), ih]
    · rw [List.filter_cons_of_pos (by simp [hqa])]
      rcases hpa : p a with _ | _
      · rw [List.find?_cons_of_neg _ (by simp [hpa]),
          List.find?_cons_of_neg t (by simp [hpa]), ih]
      · rw [List.find?_cons_of_pos _ hpa,
          List.find?_cons_of_pos t (by simp [hpa, hqa])]

theorem findJ_spec {s2 : List Char} {w : ℤ} {marks : Finset ℕ} {i : ℕ}
    {co : Option Char} {j : ℕ} (h : findJ s2 w marks i co = some j) :
    j < s2.length ∧ windowOK w i j ∧ j ∉ marks ∧ s2.get? j = co := by
  have hmem := List.mem_of_find?_eq_some h
  have hp := List.find?_some h
  rw [List.mem_range] at hmem
  simp only [Bool.and_eq_true, Bool.not_eq_true', decide_eq_true_eq,
    decide_eq_false_iff_not] at hp
  exact ⟨hmem, hp.1.1, hp.1.2, hp.2⟩

theorem jaroPairsAux_mem {s1 s2 : List Char} {w : ℤ} {rows : List ℕ}
    {marks : Finset ℕ} {p : ℕ × ℕ} (h : p ∈ jaroPairsAux s1 s2 w rows marks) :
    p.1 ∈ rows ∧ p.2 < s2.length ∧ s2.get? p.2 = s1.get? p.1 := by
  induction rows generalizing marks with
  | nil => cases h
  | cons i rest ih =>
    rw [jaroPairsAux] at h
    rcases hf : findJ s2 w marks i (s1.get? i) with _ | j <;> rw [hf] at h
    · obtain ⟨h1, h2, h3⟩ := ih h
      exact ⟨List.mem_cons_of_mem i h1, h2, h3⟩
    · rcases List.mem_cons.mp h with hp | hp
      · subst hp
        obtain ⟨hb, _, _, hc⟩ := findJ_spec hf
        exact ⟨List.mem_cons_self i rest, hb, hc⟩
      · obtain ⟨h1, h2, h3⟩ := ih hp
        exact ⟨List.mem_cons_of_mem i h1, h2, h3⟩

theorem jaroPairsAux_fst_sublist (s1 s2 : List Char) (w : ℤ) (rows : List ℕ)
    (marks : Finset ℕ) :
    ((jaroPairsAux s1 s2 w rows marks).map Prod.fst).Sublist rows := by
  induction rows generalizing marks with
  | nil => simp [jaroPairsAux]
  | cons i rest ih =>
    rw [jaroPairsAux]
    rcases hf : findJ s2 w marks i (s1.get? i) with _ | j
    · exact (ih marks).cons i
    · exact (ih (insert j marks)).cons₂ i

/-- The still-unmatched indices of `s2` carrying character `co`, ascending:
what the inner loop can still choose from close to its window. -/
def availCols (s2 : List Char) (marks : Finset ℕ) (co : Option Char) : List ℕ :=
  (List.range s2.length).filter
    (fun j => !(decide (j ∈ marks)) && decide (s2.get? j = co))

theorem findJ_eq_availCols (s2 : List Char) (w : ℤ) (marks : Finset ℕ)
    (i : ℕ) (co : Option Char) :
    findJ s2 w marks i co =
      (availCols s2 marks co).find? (fun j => decide (windowOK w i j)) := by
  rw [availCols, find?_filter, findJ]
  exact find?_congrP _ _ _ (fun x _ => by rw [Bool.and_assoc])

theorem availCols_nodup (s2 : List Char) (marks : Finset ℕ) (co : Option Char) :
    (availCols s2 marks co).Nodup :=
  (List.nodup_range s2.length).filter _

theorem availCols_sorted (s2 : List Char) (marks : Finset ℕ) (co : Option Char) :
    (availCols s2 marks co).Pairwise (· < ·) :=
  (List.pairwise_lt_range s2.length).filter _

theorem availCols_insert (s2 : List Char) (marks : Finset ℕ) (co : Option Char)
    (j : ℕ) :
    availCols s2 (insert j marks) co = (availCols s2 marks co).erase j := by
  rw [(availCols_nodup s2 marks co).erase_eq_filter j, availCols, availCols,
    List.filter_filter]
  exact List.filter_congr (fun x _ => by
    simp only [Finset.mem_insert, Bool.and_eq_true, Bool.not_eq_true',
      decide_eq_false_iff_not, decide_eq_true_eq, bne]
    rcases hco : decide (s2.get? x = co) with _ | _
    · simp
    · simp only [Bool.and_true]
      rcases hxj : decide (x = j) with _ | _
      · simp only [decide_eq_false_iff_not] at hxj
        simp [hxj]
      · simp only [decide_eq_true_eq] at hxj
        simp [hxj])

/-- Proof-side abstraction of the matching pass restricted to one character
class: the available columns are carried as an explicit ascending list. -/
def auxL (w : ℤ) : List ℕ → List ℕ → List (ℕ × ℕ)
  | [], _ => []
  | i :: I, J =>
    match J.find? (fun j => decide (windowOK w i j)) with
    | some j => (i, j) :: auxL w I (J.erase j)
    | none => auxL w I J

/-- The two-pointer merge which the per-class greedy matching implements. -/
def twoPtr (w : ℤ) : List ℕ → List ℕ → List (ℕ × ℕ)
  | [], _ => []
  | _ :: _, [] => []
  | i :: I, j :: J =>
    if windowOK w i j then (i, j) :: twoPtr w I J
    else if (j : ℤ) < (i : ℤ) - w then twoPtr w (i :: I) J
    else twoPtr w I (j :: J)
  termination_by I J => I.length + J.length

theorem jaroPairsAux_eq_auxL (s1 s2 : List Char) (w : ℤ) (c : Option Char)
    (rows : List ℕ) (marks : Finset ℕ) (hrows : ∀ i ∈ rows, s1.get? i = c) :
    jaroPairsAux s1 s2 w rows marks = auxL w rows (availCols s2 marks c) := by
  induction rows generalizing marks with
  | nil => rfl
  | cons i rest ih =>
    have hc : s1.get? i = c := hrows i (List.mem_cons_self i rest)
    rw [jaroPairsAux, auxL, hc, findJ_eq_availCols]
    rcases hf : (availCols s2 marks c).find? (fun j => decide (windowOK w i j))
      with _ | j
    · exact ih marks (fun x hx => hrows x (List.mem_cons_of_mem i hx))
    · dsimp only
      rw [ih (insert j marks) (fun x hx => hrows x (List.mem_cons_of_mem i hx)),
        availCols_insert]

theorem auxL_nil_right (w : ℤ) (I : List ℕ) : auxL w I [] = [] := by
  induction I with
  | nil => rfl
  | cons i I ih => rw [auxL, List.find?_nil]; exact ih

theorem auxL_drop_low (w : ℤ) (j : ℕ) (I J : List ℕ)
    (hlow : ∀ i ∈ I, (j : ℤ) < (i : ℤ) - w) :
    auxL w I (j :: J) = auxL w I J := by
  induction I generalizing J with
  | nil => rfl
  | cons i I ih =>
    have hj : ¬ windowOK w i j := by
      have := hlow i (List.mem_cons_self i I)
      intro hwin
      exact absurd hwin.1 (by omega)
    rw [auxL, auxL, List.find?_cons_of_neg J (by simpa using hj)]
    rcases hf : J.find? (fun x => decide (windowOK w i x)) with _ | j2
    · exact ih J (fun x hx => hlow x (List.mem_cons_of_mem i hx))
    · have hne : j ≠ j2 := by
        have hw2 := List.find?_some hf
        simp only [decide_eq_true_eq] at hw2
        have := hlow i (List.mem_cons_self i I)
        intro he
        subst he
        exact absurd hw2.1 (by omega)
      dsimp only
      rw [List.erase_cons_tail (by simp [hne]),
        ih (J.erase j2) (fun x hx => hlow x (List.mem_cons_of_mem i hx))]

theorem auxL_eq_twoPtr (w : ℤ) (I J : List ℕ)
    (hI : I.Pairwise (· < ·)) (hJ : J.Pairwise (· < ·)) :
    auxL w I J = twoPtr w I J := by
  induction I, J using twoPtr.induct w with
  | case1 J => rw [auxL, twoPtr]
  | case2 i I => rw [auxL_nil_right, twoPtr]
  | case3 i I j J hwin ih =>
    rw [auxL, List.find?_cons_of_pos J (by simpa using hwin)]
    dsimp only
    rw [List.erase_cons_head, twoPtr, if_pos hwin,
      ih (List.Pairwise.of_cons hI) (List.Pairwise.of_cons hJ)]
  | case4 i I j J hwin hlow ih =>
    rw [twoPtr, if_neg hwin, if_pos hlow, ← ih hI (List.Pairwise.of_cons hJ)]
    exact auxL_drop_low w j (i :: I) J (by
      intro x hx
      rcases List.mem_cons.mp hx with hx | hx
      · subst hx; exact hlow
      · have : i < x := (List.pairwise_cons.mp hI).1 x hx
        omega)
  | case5 i I j J hwin hlow ih =>
    have hnone : (j :: J).find? (fun x => decide (windowOK w i x)) = none := by
      rw [List.find?_eq_none]
      intro x hx
      simp only [decide_eq_true_eq]
      rcases List.mem_cons.mp hx with hx | hx
      · subst hx; exact hwin
      · have hjx : j < x := (List.pairwise_cons.mp hJ).1 x hx
        intro hcontra
        rcases hcontra with ⟨h1, h2⟩
        have hij : ¬ ((i : ℤ) - w ≤ j ∧ (j : ℤ) < i + w + 1) := hwin
        push_neg at hij
        have := hij (by omega)
        omega
    rw [auxL, hnone, twoPtr, if_neg hwin, if_neg hlow]
    exact ih (List.Pairwise.of_cons hI) hJ

theorem windowOK_symm {w : ℤ} {i j : ℕ} (h : windowOK w i j) : windowOK w j i := by
  rcases h with ⟨h1, h2⟩
  exact ⟨by omega, by omega⟩

theorem twoPtr_swap (w : ℤ) (hw : 0 ≤ w) (I J : List ℕ) :
    twoPtr w I J = (twoPtr w J I).map Prod.swap := by
  induction I, J using twoPtr.induct w with
  | case1 J => cases J <;> simp [twoPtr]
  | case2 i I => simp [twoPtr]
  | case3 i I j J hwin ih =>
    rw [twoPtr, if_pos hwin, twoPtr, if_pos (windowOK_symm hwin), List.map_cons,
      Prod.swap_prod_mk, ih]
  | case4 i I j J hwin hlow ih =>
    have hn2 : ¬ ((i : ℤ) < (j : ℤ) - w) := by omega
    rw [twoPtr, if_neg hwin, if_pos hlow, twoPtr,
      if_neg (fun hc => hwin (windowOK_symm hc)), if_neg hn2, ih]
  | case5 i I j J hwin hlow ih =>
    have hlow2 : (i : ℤ) < (j : ℤ) - w := by
      have hij : ¬ ((i : ℤ) - w ≤ j ∧ (j : ℤ) < i + w + 1) := hwin
      push_neg at hij
      have := hij (by omega)
      omega
    rw [twoPtr, if_neg hwin, if_neg hlow, twoPtr,
      if_neg (fun hc => hwin (windowOK_symm hc)), if_pos hlow2, ih]

theorem twoPtr_neg (w : ℤ) (hw : w < 0) (I J : List ℕ) : twoPtr w I J = [] := by
  induction I, J using twoPtr.induct w with
  | case1 J => rw [twoPtr]
  | case2 i I => rw [twoPtr]
  | case3 i I j J hwin ih =>
    rcases hwin with ⟨h1, h2⟩
    omega
  | case4 i I j J hwin hlow ih => rw [twoPtr, if_neg hwin, if_pos hlow]; exact ih
  | case5 i I j J hwin hlow ih => rw [twoPtr, if_neg hwin, if_neg hlow]; exact ih

theorem findJ_filter_marks (s2 : List Char) (w : ℤ) (marks : Finset ℕ)
    (i : ℕ) (c : Char) :
    findJ s2 w marks i (some c) =
      findJ s2 w (marks.filter (fun j => s2.get? j = some c)) i (some c) := by
  unfold findJ
  apply find?_congrP
  intro x _
  by_cases hx : s2.get? x = some c
  · have hx2 : s2[x]? = some c := by rw [← List.get?_eq_getElem?]; exact hx
    have hmm : decide (x ∈ marks.filter (fun j => s2.get? j = some c)) =
        decide (x ∈ marks) := by
      rw [decide_eq_decide]
      simp [Finset.mem_filter, hx2]
    rw [hmm]
  · rw [decide_eq_false hx, Bool.and_false, Bool.and_false]

/-- Restriction of the matching pass to one character class: filtering the
produced pairs by the `s1`-character equals running the pass on the rows of
that character with the marks of that character. -/
theorem jaroPairsAux_filter_class (s1 s2 : List Char) (w : ℤ) (c : Char)
    (rows : List ℕ) (marks : Finset ℕ) :
    (jaroPairsAux s1 s2 w rows marks).filter
        (fun p => decide (s1.get? p.1 = some c)) =
      jaroPairsAux s1 s2 w (rows.filter (fun i => decide (s1.get? i = some c)))
        (marks.filter (fun j => s2.get? j = some c)) := by
  induction rows generalizing marks with
  | nil => rfl
  | cons i rest ih =>
    by_cases hc : s1.get? i = some c
    · rw [List.filter_cons_of_pos (by simpa using hc)]
      rw [jaroPairsAux, jaroPairsAux, hc, findJ_filter_marks]
      rcases hf : findJ s2 w (marks.filter (fun j => s2.get? j = some c)) i
        (some c) with _ | j
      · exact ih marks
      · dsimp only
        rw [List.filter_cons_of_pos (by simpa using hc)]
        have hjc : s2.get? j = some c := (findJ_spec hf).2.2.2
        rw [ih (insert j marks), Finset.filter_insert, if_pos hjc]
    · rw [List.filter_cons_of_neg (by simpa using hc)]
      rw [jaroPairsAux]
      rcases hf : findJ s2 w marks i (s1.get? i) with _ | j
      · exact ih marks
      · dsimp only
        rw [List.filter_cons_of_neg (by simpa using hc)]
        have hjc : s2.get? j = s1.get? i := (findJ_spec hf).2.2.2
        rw [ih (insert j marks), Finset.filter_insert,
          if_neg (by rw [hjc]; exact hc)]

/-- The ascending list of positions of `s` holding character `c`. -/
def charIdx (s : List Char) (c : Char) : List ℕ :=
  (List.range s.length).filter (fun i => decide (s.get? i = some c))

theorem availCols_empty (s2 : List Char) (c : Char) :
    availCols s2 ∅ (some c) = charIdx s2 c := by
  unfold availCols charIdx
  exact List.filter_congr (fun x _ => by simp)

theorem jaroPairs_filter_class (a b : List Char) (w : ℤ) (c : Char) :
    (jaroPairs a b w).filter (fun p => decide (a.get? p.1 = some c)) =
      twoPtr w (charIdx a c) (charIdx b c) := by
  have hrows : ∀ i ∈ (List.range a.length).filter
      (fun i => decide (a.get? i = some c)), a.get? i = some c := by
    intro i hi
    simp only [List.mem_filter, decide_eq_true_eq] at hi
    exact hi.2
  rw [jaroPairs, jaroPairsAux_filter_class, Finset.filter_empty,
    jaroPairsAux_eq_auxL a b w (some c) _ ∅ hrows, availCols_empty]
  exact auxL_eq_twoPtr w _ _ ((List.pairwise_lt_range _).filter _)
    ((List.pairwise_lt_range _).filter _)

/-- The matched pair lists of the two argument orders are transposes of one
another, character class by character class. -/
theorem jaroPairs_class_swap (w : ℤ) (hw : 0 ≤ w) (a b : List Char) (c : Char) :
    (jaroPairs a b w).filter (fun p => decide (a.get? p.1 = some c)) =
      ((jaroPairs b a w).filter
        (fun p => decide (b.get? p.1 = some c))).map Prod.swap := by
  rw [jaroPairs_filter_class, jaroPairs_filter_class, twoPtr_swap w hw]

theorem jaroPairs_mem_swap (w : ℤ) (hw : 0 ≤ w) (a b : List Char) (p : ℕ × ℕ) :
    p ∈ jaroPairs a b w ↔ p.swap ∈ jaroPairs b a w := by
  suffices hdir : ∀ x y : List Char, ∀ q : ℕ × ℕ,
      q ∈ jaroPairs x y w → q.swap ∈ jaroPairs y x w by
    constructor
    · exact hdir a b p
    · intro h
      have := hdir b a p.swap h
      rwa [Prod.swap_swap] at this
  intro x y q hq
  obtain ⟨h1, h2, h3⟩ := jaroPairsAux_mem (by rwa [jaroPairs] at hq)
  rw [List.mem_range] at h1
  obtain ⟨cq, hcq⟩ : ∃ cq, x.get? q.1 = some cq := by
    rw [List.get?_eq_get h1]
    exact ⟨_, rfl⟩
  have hfil : q ∈ (jaroPairs x y w).filter
      (fun p => decide (x.get? p.1 = some cq)) := by
    rw [List.mem_filter]
    exact ⟨hq, by simpa using hcq⟩
  rw [jaroPairs_class_swap w hw x y cq, List.mem_map] at hfil
  obtain ⟨q2, hq2, hswap⟩ := hfil
  have hq2eq : q2 = q.swap := by rw [← hswap, Prod.swap_swap]
  subst hq2eq
  exact (List.mem_filter.mp hq2).1

theorem jaroPairs_fst_sorted (a b : List Char) (w : ℤ) :
    ((jaroPairs a b w).map Prod.fst).Pairwise (· < ·) :=
  List.Pairwise.sublist (jaroPairsAux_fst_sublist a b w _ ∅)
    (List.pairwise_lt_range _)

theorem jaroPairs_nodup (a b : List Char) (w : ℤ) : (jaroPairs a b w).Nodup :=
  List.Nodup.of_map Prod.fst
    ((jaroPairs_fst_sorted a b w).imp (fun h => Nat.ne_of_lt h))

theorem jaroPairs_length_symm (w : ℤ) (hw : 0 ≤ w) (a b : List Char) :
    (jaroPairs a b w).length = (jaroPairs b a w).length := by
  have hperm : (jaroPairs a b w).Perm ((jaroPairs b a w).map Prod.swap) := by
    rw [List.perm_ext_iff_of_nodup (jaroPairs_nodup a b w)
      (((jaroPairs_nodup b a w)).map Prod.swap_injective)]
    intro q
    rw [jaroPairs_mem_swap w hw a b q, List.mem_map]
    constructor
    · intro h
      exact ⟨q.swap, h, Prod.swap_swap q⟩
    · rintro ⟨q2, hq2, rfl⟩
      rwa [Prod.swap_swap]
  rw [hperm.length_eq, List.length_map]

/-- The matched rows of one direction are exactly the matched columns of the
other direction, read off in ascending order. -/
theorem jaroPairs_fst_eq_filter (w : ℤ) (hw : 0 ≤ w) (a b : List Char) :
    (jaroPairs a b w).map Prod.fst =
      (List.range a.length).filter
        (fun i => decide (i ∈ (jaroPairs b a w).map Prod.snd)) := by
  haveI : IsAntisymm ℕ (· < ·) := ⟨fun x y h1 h2 => absurd h2 (Nat.lt_asymm h1)⟩
  have hnd1 : ((jaroPairs a b w).map Prod.fst).Nodup :=
    (jaroPairs_fst_sorted a b w).imp (fun h => Nat.ne_of_lt h)
  have hnd2 := (List.nodup_range a.length).filter
    (fun i => decide (i ∈ (jaroPairs b a w).map Prod.snd))
  apply List.eq_of_perm_of_sorted _ (jaroPairs_fst_sorted a b w)
    ((List.pairwise_lt_range a.length).filter _)
  rw [List.perm_ext_iff_of_nodup hnd1 hnd2]
  intro i
  rw [List.mem_filter, List.mem_map, List.mem_range]
  simp only [decide_eq_true_eq, List.mem_map]
  constructor
  · rintro ⟨p, hp, rfl⟩
    obtain ⟨hr, _, _⟩ := jaroPairsAux_mem (by rwa [jaroPairs] at hp)
    rw [List.mem_range] at hr
    refine ⟨hr, p.swap, (jaroPairs_mem_swap w hw a b p).mp hp, rfl⟩
  · rintro ⟨hi, q, hq, rfl⟩
    refine ⟨q.swap, ?_, rfl⟩
    exact (jaroPairs_mem_swap w hw b a q).mp hq

theorem zip_mismatch_symm (X Y : List (Option Char)) :
    ((X.zip Y).filter (fun q => decide (q.1 ≠ q.2))).length =
      ((Y.zip X).filter (fun q => decide (q.1 ≠ q.2))).length := by
  rw [← List.zip_swap X Y, List.filter_map, List.length_map]
  congr 1
  apply List.filter_congr
  intro q _
  simp only [Function.comp_apply, Prod.fst_swap, Prod.snd_swap]
  rw [decide_eq_decide]
  exact ne_comm

theorem jaroTrans_symm (w : ℤ) (hw : 0 ≤ w) (a b : List Char) :
    jaroTrans a b w = jaroTrans b a w := by
  simp only [jaroTrans]
  rw [show (jaroPairs a b w).map (fun p => a.get? p.1) =
      ((jaroPairs a b w).map Prod.fst).map (fun i => a.get? i) from by
    rw [List.map_map]; rfl]
  rw [show (jaroPairs b a w).map (fun p => b.get? p.1) =
      ((jaroPairs b a w).map Prod.fst).map (fun i => b.get? i) from by
    rw [List.map_map]; rfl]
  rw [jaroPairs_fst_eq_filter w hw a b, jaroPairs_fst_eq_filter w hw b a]
  exact zip_mismatch_symm _ _

theorem jaroPairsAux_neg {w : ℤ} (hw : w < 0) (s1 s2 : List Char)
    (rows : List ℕ) (marks : Finset ℕ) :
    jaroPairsAux s1 s2 w rows marks = [] := by
  induction rows generalizing marks with
  | nil => rfl
  | cons i rest ih =>
    rw [jaroPairsAux]
    have hnone : findJ s2 w marks i (s1.get? i) = none := by
      rw [findJ, List.find?_eq_none]
      intro x _
      simp only [Bool.and_eq_true, decide_eq_true_eq]
      rintro ⟨⟨⟨hw1, hw2⟩, _⟩, _⟩
      omega
    rw [hnone]
    exact ih marks

/-- Symmetry of `FuzzyMatcher.jaroSimilarity`. -/
theorem jaroSimilarity_comm (s1 s2 : String) :
    jaroSimilarity s1 s2 = jaroSimilarity s2 s1 := by
  simp only [jaroSimilarity]
  by_cases h1 : s1.length = 0 <;> by_cases h2 : s2.length = 0
  · simp [h1, h2]
  · simp [h1, h2]
  · simp [h1, h2]
  · rw [if_neg (show ¬ (s1.length = 0 ∧ s2.length = 0) by tauto),
      if_neg (show ¬ (s1.length = 0 ∨ s2.length = 0) by tauto),
      if_neg (show ¬ (s2.length = 0 ∧ s1.length = 0) by tauto),
      if_neg (show ¬ (s2.length = 0 ∨ s1.length = 0) by tauto)]
    have hwmax : ((max s2.length s1.length : ℕ) : ℤ) / 2 - 1 =
        ((max s1.length s2.length : ℕ) : ℤ) / 2 - 1 := by rw [Nat.max_comm]
    rw [hwmax]
    rcases lt_or_le (((max s1.length s2.length : ℕ) : ℤ) / 2 - 1) 0 with hneg | hpos
    · rw [jaroPairs, jaroPairs, jaroPairsAux_neg hneg, jaroPairsAux_neg hneg]
      simp
    · rw [jaroPairs_length_symm _ hpos s1.data s2.data,
        jaroTrans_symm _ hpos s1.data s2.data]
      by_cases hz : (jaroPairs s2.data s1.data
          (((max s1.length s2.length : ℕ) : ℤ) / 2 - 1)).length = 0
      · rw [if_pos hz, if_pos hz]
      · rw [if_neg hz, if_neg hz]
        ring

/-! ## FuzzyMatcher.wordOverlapScore -/

/-- `new Set(s.split(' ').filter(w => w.length > 1))`. -/
def wordSet (s : String) : Finset String :=
  ((s.splitOn " ").filter (fun w => 1 < w.length)).toFinset

/-- `FuzzyMatcher.wordOverlapScore`: Jaccard index of the two token sets;
`1.0` when both are empty, `0.0` when exactly one is. -/
def wordOverlapScore (s1 s2 : String) : ℚ :=
  let words1 := wordSet s1
  let words2 := wordSet s2
  if words1 = ∅ ∧ words2 = ∅ then 1
  else if words1 = ∅ ∨ words2 = ∅ then 0
  else ((words1 ∩ words2).card : ℚ) / (((words1 ∪ words2).card : ℕ) : ℚ)

theorem wordOverlapScore_comm (s1 s2 : String) :
    wordOverlapScore s1 s2 = wordOverlapScore s2 s1 := by
  simp only [wordOverlapScore]
  rw [Finset.inter_comm, Finset.union_comm]
  by_cases h1 : wordSet s1 = ∅ <;> by_cases h2 : wordSet s2 = ∅ <;> simp [h1, h2]

/-! ## FuzzyMatcher.getSimilarity -/

/-- `FuzzyMatcher.getSimilarity`: `1.0` on equal normalizations, otherwise
the `0.3/0.3/0.2/0.2` weighted blend of the four sub-scores. -/
def getSimilarity (str1 str2 : String) : ℚ :=
  let s1 := normalize str1
  let s2 := normalize str2
  if s1 = s2 then 1
  else
    levenshteinSimilarity s1 s2 * (3/10) + jaroSimilarity s1 s2 * (3/10) +
      substringScore s1 s2 * (1/5) + wordOverlapScore s1 s2 * (1/5)

/-- C9: `similarity(a,b) = similarity(b,a)`, and each of the four sub-scores
(edit-distance similarity, Jaro similarity, substring-containment score,
word-overlap score) is itself symmetric in its two arguments. -/
theorem similarity_symmetric (a b : String) :
    getSimilarity a b = getSimilarity b a ∧
    levenshteinSimilarity a b = levenshteinSimilarity b a ∧
    jaroSimilarity a b = jaroSimilarity b a ∧
    substringScore a b = substringScore b a ∧
    wordOverlapScore a b = wordOverlapScore b a := by
  refine ⟨?_, levenshteinSimilarity_comm a b, jaroSimilarity_comm a b,
    substringScore_comm a b, wordOverlapScore_comm a b⟩
  simp only [getSimilarity]
  by_cases h : normalize a = normalize b
  · rw [if_pos h, if_pos h.symm]
  · rw [if_neg h, if_neg (fun he => h he.symm), levenshteinSimilarity_comm,
      jaroSimilarity_comm, substringScore_comm, wordOverlapScore_comm]

/-- C10: any two strings with equal normalizations score exactly `1.0` via
the fast path and clear `MIN_MATCH_SCORE`; in particular `"!!!"` and `"???"`
both normalize to the empty string, so `similarity("!!!", "???") = 1.0`
though the raw strings share no characters. -/
theorem equal_normalization_scores_one :
    (∀ a b : String, normalize a = normalize b →
      getSimilarity a b = 1 ∧ MIN_MATCH_SCORE ≤ getSimilarity a b) ∧
    normalize "!!!" = "" ∧ normalize "???" = "" ∧
    getSimilarity "!!!" "???" = 1 := by
  refine ⟨fun a b h => ?_, by decide, by decide, by decide⟩
  have h1 : getSimilarity a b = 1 := by
    simp only [getSimilarity]
    rw [if_pos h]
  refine ⟨h1, ?_⟩
  rw [h1, MIN_MATCH_SCORE_eq]
  norm_num

/-- Witness for C10 at the concrete inputs of the claim. -/
theorem equal_normalization_scores_one_witness :
    getSimilarity "!!!" "???" = 1 ∧
      MIN_MATCH_SCORE ≤ getSimilarity "!!!" "???" :=
  equal_normalization_scores_one.1 "!!!" "???" (by decide)

/-! ## FuzzyMatcher.findBestMatch (monolithic content script)

One candidate row of the remote search response, with the fields that
`findBestMatch` and `fetchFromApi` read. -/

/-- The numeric rating object of a candidate:
`{ aggregateRating, voteCount }`. -/
structure AggRating where
  aggregateRating : ℚ
  voteCount : Option ℕ
deriving DecidableEq

/-- One candidate search result. -/
structure SearchResult where
  primaryTitle : Option String
  title : Option String
  titleType : Option String
  rtype : Option String
  rating : Option AggRating
deriving DecidableEq

/-- JS `a || b` on optional strings: `undefined` and `""` are falsy. -/
def jsOrStr (a b : Option String) : Option String :=
  match a with
  | some s => if s = "" then b else some s
  | none => b

/-- JS `String.prototype.toLowerCase`, character by character. -/
def jsToLowerStr (s : String) : String := ⟨s.data.map Char.toLower⟩

theorem jsToLowerStr_ne_empty {T : String} (h : T ≠ "") : jsToLowerStr T ≠ "" := by
  intro hc
  apply h
  have hd : (jsToLowerStr T).data = [] := by rw [hc]
  rw [jsToLowerStr] at hd
  simp only [List.map_eq_nil_iff] at hd
  exact congrArg String.mk hd

/-- `result.primaryTitle || result.title || ''`. -/
def displayTitle (r : SearchResult) : String :=
  (jsOrStr r.primaryTitle (jsOrStr r.title none)).getD ""

/-- `result.titleType?.toLowerCase() || result.type?.toLowerCase()`. -/
def resultTypeLower (r : SearchResult) : Option String :=
  jsOrStr (r.titleType.map jsToLowerStr) (r.rtype.map jsToLowerStr)

/-- The filter predicate of step 1: `resultType === expectedType`. -/
def typeMatches (r : SearchResult) (expectedType : String) : Bool :=
  decide (resultTypeLower r = some expectedType)

/-- The loop body of `findBestMatch`: carry `(bestMatch, bestScore)` and
update both on a strict improvement (`score > bestScore`). -/
def selStep (searchTitle : String) (st : Option (SearchResult × ℚ) × ℚ)
    (r : SearchResult) : Option (SearchResult × ℚ) × ℚ :=
  let score := getSimilarity searchTitle (displayTitle r)
  if st.2 < score then (some (r, score), score) else st

/-- `FuzzyMatcher.findBestMatch`: soft type filter, best-score scan, and the
`MIN_MATCH_SCORE` gate. -/
def findBestMatch (searchTitle : String) (results : List SearchResult)
    (expectedType : Option String) : Option (SearchResult × ℚ) :=
  let filteredResults :=
    match expectedType with
    | some e =>
      if e ≠ "" then
        let typeFiltered := results.filter (fun r => typeMatches r e)
        if 0 < typeFiltered.length then typeFiltered else results
      else results
    | none => results
  let st := filteredResults.foldl (selStep searchTitle) (none, 0)
  if MIN_MATCH_SCORE ≤ st.2 then st.1 else none

/-- Characterisation of the best-score scan: either the state is unchanged
and every score is bounded by the incoming best, or the final state holds
the first candidate attaining the strictly highest score. -/
theorem selLoop_spec (s : String) :
    ∀ (l : List SearchResult) (bm : Option (SearchResult × ℚ)) (bs : ℚ),
    (l.foldl (selStep s) (bm, bs) = (bm, bs) ∧
      ∀ r ∈ l, getSimilarity s (displayTitle r) ≤ bs) ∨
    (∃ i r, l.get? i = some r ∧
      l.foldl (selStep s) (bm, bs) =
        (some (r, getSimilarity s (displayTitle r)),
          getSimilarity s (displayTitle r)) ∧
      bs < getSimilarity s (displayTitle r) ∧
      (∀ j r2, l.get? j = some r2 →
        getSimilarity s (displayTitle r2) ≤ getSimilarity s (displayTitle r)) ∧
      (∀ j r2, j < i → l.get? j = some r2 →
        getSimilarity s (displayTitle r2) < getSimilarity s (displayTitle r))) := by
  intro l
  induction l with
  | nil => exact fun bm bs => Or.inl ⟨rfl, by simp⟩
  | cons r t ih =>
    intro bm bs
    by_cases hlt : bs < getSimilarity s (displayTitle r)
    · have hstep : selStep s (bm, bs) r =
          (some (r, getSimilarity s (displayTitle r)),
            getSimilarity s (displayTitle r)) := by
        simp only [selStep]
        rw [if_pos hlt]
      rw [List.foldl_cons, hstep]
      rcases ih (some (r, getSimilarity s (displayTitle r)))
          (getSimilarity s (displayTitle r)) with ⟨hfold, hbound⟩ | hright
      · refine Or.inr ⟨0, r, rfl, hfold, hlt, ?_, ?_⟩
        · intro j r2 hget
          rcases j with _ | j
          · rw [List.get?_cons_zero] at hget
            cases hget
            exact le_refl _
          · rw [List.get?_cons_succ] at hget
            exact hbound r2 (List.get?_mem hget)
        · intro j r2 hj _
          omega
      · obtain ⟨i2, r2, hget, hfold, hgt, hub, hbefore⟩ := hright
        refine Or.inr ⟨i2 + 1, r2, by rwa [List.get?_cons_succ], hfold,
          lt_trans hlt hgt, ?_, ?_⟩
        · intro j r3 hget3
          rcases j with _ | j
          · rw [List.get?_cons_zero] at hget3
            cases hget3
            exact le_of_lt hgt
          · rw [List.get?_cons_succ] at hget3
            exact hub j r3 hget3
        · intro j r3 hj hget3
          rcases j with _ | j
          · rw [List.get?_cons_zero] at hget3
            cases hget3
            exact hgt
          · rw [List.get?_cons_succ] at hget3
            exact hbefore j r3 (by omega) hget3
    · have hstep : selStep s (bm, bs) r = (bm, bs) := by
        simp only [selStep]
        rw [if_neg hlt]
      rw [List.foldl_cons, hstep]
      rcases ih bm bs with ⟨hfold, hbound⟩ | hright
      · refine Or.inl ⟨hfold, ?_⟩
        intro r2 hr2
        rcases List.mem_cons.mp hr2 with h | h
        · subst h
          exact le_of_not_lt hlt
        · exact hbound r2 h
      · obtain ⟨i2, r2, hget, hfold, hgt, hub, hbefore⟩ := hright
        refine Or.inr ⟨i2 + 1, r2, by rwa [List.get?_cons_succ], hfold, hgt,
          ?_, ?_⟩
        · intro j r3 hget3
          rcases j with _ | j
          · rw [List.get?_cons_zero] at hget3
            cases hget3
            exact le_trans (le_of_not_lt hlt) (le_of_lt hgt)
          · rw [List.get?_cons_succ] at hget3
            exact hub j r3 hget3
        · intro j r3 hj hget3
          rcases j with _ | j
          · rw [List.get?_cons_zero] at hget3
            cases hget3
            exact lt_of_le_of_lt (le_of_not_lt hlt) hgt
          · rw [List.get?_cons_succ] at hget3
            exact hbefore j r3 (by omega) hget3

/-- C1: with no expected type, `findBestMatch` returns none exactly when no
candidate scores at least `MIN_MATCH_SCORE`; otherwise it returns the
first-seen candidate attaining the strictly highest score, paired with that
score (ties keep the earlier candidate). -/
theorem findBestMatch_first_best (s : String) (rs : List SearchResult) :
    (findBestMatch s rs none = none ↔
      ∀ r ∈ rs, getSimilarity s (displayTitle r) < MIN_MATCH_SCORE) ∧
    (∀ r sc, findBestMatch s rs none = some (r, sc) →
      MIN_MATCH_SCORE ≤ sc ∧ getSimilarity s (displayTitle r) = sc ∧
      ∃ i, rs.get? i = some r ∧
        (∀ j r2, rs.get? j = some r2 →
          getSimilarity s (displayTitle r2) ≤ sc) ∧
        (∀ j r2, j < i → rs.get? j = some r2 →
          getSimilarity s (displayTitle r2) < sc)) := by
  have hmin : (0 : ℚ) < MIN_MATCH_SCORE := by
    rw [MIN_MATCH_SCORE_eq]
    norm_num
  simp only [findBestMatch]
  rcases selLoop_spec s rs none 0 with ⟨hfold, hbound⟩ | hright
  · rw [hfold]
    rw [if_neg (by simp; linarith)]
    constructor
    · refine ⟨fun _ r hr => ?_, fun _ => rfl⟩
      exact lt_of_le_of_lt (hbound r hr) hmin
    · intro r sc h
      cases h
  · obtain ⟨i, r, hget, hfold, _, hub, hbefore⟩ := hright
    rw [hfold]
    by_cases hgate : MIN_MATCH_SCORE ≤ getSimilarity s (displayTitle r)
    · rw [if_pos hgate]
      constructor
      · constructor
        · intro h
          cases h
        · intro hall
          exact absurd hgate (not_le.mpr (hall r (List.get?_mem hget)))
      · intro r0 sc0 h
        rw [Option.some_inj, Prod.mk.injEq] at h
        obtain ⟨hr0, hsc0⟩ := h
        subst hr0
        refine ⟨by rwa [← hsc0], hsc0, i, hget, ?_, ?_⟩
        · intro j r2 hj
          rw [← hsc0]
          exact hub j r2 hj
        · intro j r2 hji hj
          rw [← hsc0]
          exact hbefore j r2 hji hj
    · rw [if_neg hgate]
      constructor
      · refine ⟨fun _ j hj => ?_, fun _ => rfl⟩
        obtain ⟨k, hk⟩ := List.get?_of_mem hj
        exact lt_of_le_of_lt (hub k j hk) (not_le.mp hgate)
      · intro r0 sc0 h
        cases h

/-- C5: for an expected type from the `{movie, series}` enum, the type
filter keeps exactly the candidates whose type matches case-insensitively
(the candidate's type is lowercased before comparison); a filter that keeps
nothing falls back to the full unfiltered list, so a `movie` query against a
series-only list is still scored. -/
theorem findBestMatch_soft_type_filter (s : String) (rs : List SearchResult)
    (e : String) (he : e = "movie" ∨ e = "series") :
    (∀ r T, r.titleType = some T → T ≠ "" →
      (typeMatches r e = true ↔ jsToLowerStr T = e)) ∧
    ((rs.filter (fun r => typeMatches r e)).length = 0 →
      findBestMatch s rs (some e) = findBestMatch s rs none) ∧
    (0 < (rs.filter (fun r => typeMatches r e)).length →
      findBestMatch s rs (some e) =
        findBestMatch s (rs.filter (fun r => typeMatches r e)) none) := by
  have hne : e ≠ "" := by
    rcases he with rfl | rfl <;> decide
  refine ⟨?_, ?_, ?_⟩
  · intro r T hT hTe
    have hrt : resultTypeLower r = some (jsToLowerStr T) := by
      unfold resultTypeLower
      rw [hT]
      show jsOrStr (some (jsToLowerStr T)) (r.rtype.map jsToLowerStr) = _
      unfold jsOrStr
      dsimp only
      rw [if_neg (jsToLowerStr_ne_empty hTe)]
    rw [typeMatches, hrt, decide_eq_true_eq, Option.some_inj]
  · intro hzero
    simp only [findBestMatch]
    rw [if_pos hne, if_neg (show ¬ 0 <
      (rs.filter (fun r => typeMatches r e)).length by omega)]
  · intro hpos
    simp only [findBestMatch]
    rw [if_pos hne, if_pos hpos]

/-- A concrete series candidate whose title matches the query exactly. -/
def upSeries : SearchResult :=
  { primaryTitle := some "Up", title := none, titleType := some "series",
    rtype := none, rating := some ⟨8, some 1200⟩ }

/-- Witness for C5: `expectedType = "movie"` against a series-only list
falls back to the unfiltered list and still returns the exact-title match
with score 1. -/
theorem findBestMatch_soft_type_filter_witness :
    findBestMatch "Up" [upSeries] (some "movie") =
        findBestMatch "Up" [upSeries] none ∧
      findBestMatch "Up" [upSeries] none = some (upSeries, 1) :=
  ⟨(findBestMatch_soft_type_filter "Up" [upSeries] "movie"
      (Or.inl rfl)).2.1 (by decide), by decide⟩

/-- Witness for C1 at a concrete list where the threshold is met: the
returned pair is the first candidate with the strictly highest score. -/
theorem findBestMatch_first_best_witness :
    MIN_MATCH_SCORE ≤ (1 : ℚ) ∧ getSimilarity "Up" (displayTitle upSeries) = 1 ∧
      ∃ i, [upSeries].get? i = some upSeries ∧
        (∀ j r2, [upSeries].get? j = some r2 →
          getSimilarity "Up" (displayTitle r2) ≤ 1) ∧
        (∀ j r2, j < i → [upSeries].get? j = some r2 →
          getSimilarity "Up" (displayTitle r2) < 1) :=
  (findBestMatch_first_best "Up" [upSeries]).2 upSeries 1 (by decide)

/-! ## ApiService — monolithic content script

`getRating`, `processQueue`, `processRequest`, `waitForRateLimit` and
`fetchFromApi` of the monolithic bundle.  Asynchronous effects are embedded
by explicit state passing: the cache is an association list, the remote
endpoint is an oracle mapping the attempt number (the `retryCount` of the
recursive call) to a response, and `setTimeout` waits are collected as a
list of delays. -/

/-- The rating object built on a successful lookup.  The display-string
formatting (`toFixed`, `formatVotes` suffixing) is kept as the raw numeric
values: no claim concerns the formatting itself. -/
structure RatingInfo where
  score : ℚ
  votes : ℕ
  confidence : ℚ
  matchedTitle : Option String
  rtype : Option String
deriving DecidableEq

/-- The rating built from `bestMatch` in `fetchFromApi` (monolithic):
`score = rating.aggregateRating`, `votes = rating.voteCount || 0`,
`confidence = bestMatch.score`, `matchedTitle = primaryTitle || title`,
`type = titleType || type`. -/
def mkRating (r : SearchResult) (ar : AggRating) (sc : ℚ) : RatingInfo :=
  { score := ar.aggregateRating
    votes := ar.voteCount.getD 0
    confidence := sc
    matchedTitle := jsOrStr r.primaryTitle r.title
    rtype := jsOrStr r.titleType r.rtype }

/-- One remote response as seen by the monolithic `fetchFromApi`: an HTTP
status with the parsed `data.titles`, or a transport failure (`AbortError`
covers the 5-second timeout abort). -/
inductive ApiResp where
  | http (status : ℕ) (titles : List SearchResult)
  | netErr (isAbort : Bool)

/-- A cache entry: `{ data, timestamp }`. -/
structure CacheEntry where
  data : RatingInfo
  timestamp : ℕ
deriving DecidableEq

/-- The in-memory cache, keyed by the request's cache key. -/
def Cache : Type := List (String × CacheEntry)

instance : DecidableEq Cache := by
  unfold Cache
  infer_instance

/-- `this.cache[cacheKey] = entry` (replacing any previous binding). -/
def cacheInsert (k : String) (e : CacheEntry) (c : Cache) : Cache :=
  (k, e) :: c.filter (fun p => decide (p.1 ≠ k))

/-- `delete this.cache[cacheKey]`. -/
def cacheErase (k : String) (c : Cache) : Cache :=
  c.filter (fun p => decide (p.1 ≠ k))

/-- The outcome of one `fetchFromApi` run: the resolved value, the cache
after the run, the number of `saveCache` persistence writes, and the
`setTimeout` retry delays in order. -/
structure MonoFetchOut where
  result : Option RatingInfo
  cache : Cache
  saveCount : ℕ
  delays : List ℕ
deriving DecidableEq

/-- `ApiService.fetchFromApi` of the monolithic bundle.  `oracle n` is the
response of attempt `n` (the attempt's `retryCount`): HTTP 429 retries twice
with `2^retryCount * 1000` ms backoff; a non-abort transport failure retries
once after 500 ms; `!response.ok || status == 499` resolves null; a match
with positive `aggregateRating` is cached (with `saveCache`) and returned;
everything else resolves null with the cache untouched. -/
def fetchFromApiMono (oracle : ℕ → ApiResp) (title : String)
    (expectedType : Option String) (cacheKey : String) (cache : Cache)
    (now : ℕ) (retryCount : ℕ) : MonoFetchOut :=
  match oracle retryCount with
  | .netErr isAbort =>
    if isAbort = false ∧ retryCount < 1 then
      let out := fetchFromApiMono oracle title expectedType cacheKey cache now
        (retryCount + 1)
      { out with delays := 500 :: out.delays }
    else { result := none, cache := cache, saveCount := 0, delays := [] }
  | .http status titles =>
    if status = 429 then
      if retryCount < 2 then
        let out := fetchFromApiMono oracle title expectedType cacheKey cache now
          (retryCount + 1)
        { out with delays := (2 ^ retryCount * 1000) :: out.delays }
      else { result := none, cache := cache, saveCount := 0, delays := [] }
    else if ¬ (200 ≤ status ∧ status < 300) ∨ status = 499 then
      { result := none, cache := cache, saveCount := 0, delays := [] }
    else if 0 < titles.length then
      match findBestMatch title titles expectedType with
      | some (res, sc) =>
        match res.rating with
        | some ar =>
          if 0 < ar.aggregateRating then
            let rating := mkRating res ar sc
            { result := some rating
              cache := cacheInsert cacheKey ⟨rating, now⟩ cache
              saveCount := 1
              delays := [] }
          else { result := none, cache := cache, saveCount := 0, delays := [] }
        | none => { result := none, cache := cache, saveCount := 0, delays := [] }
      | none => { result := none, cache := cache, saveCount := 0, delays := [] }
    else { result := none, cache := cache, saveCount := 0, delays := [] }
  termination_by 2 - retryCount

/-- The monolithic `getRating` cache key:
`${title}${type ? `_${type}` : ''}` — no lowercasing, no `"unknown"`. -/
def monoCacheKey (title : String) (ty : Option String) : String :=
  title ++ (match ty with
    | some t => if t = "" then "" else "_" ++ t
    | none => "")

/-- `ApiService.isCacheEntryValid`: a (truthy) timestamp, aged at most
`CACHE_MAX_AGE`. -/
def isCacheEntryValid (now : ℕ) (e : CacheEntry) : Bool :=
  decide (e.timestamp ≠ 0) && decide (now - e.timestamp ≤ CACHE_MAX_AGE)

/-- A queued request (the `resolve` callback is implicit). -/
structure QueueReq where
  title : String
  rtype : Option String
  cacheKey : String
deriving DecidableEq

/-- The observable outcome of the monolithic `getRating` before the remote
call: a cache hit, or a request pushed onto the queue. -/
inductive MonoGet where
  | hit (data : RatingInfo)
  | enqueue (req : QueueReq)
deriving DecidableEq

/-- The monolithic `ApiService.getRating` up to its queue push: check the
cache under `monoCacheKey`, return a valid hit, delete an expired entry,
otherwise enqueue.  There is no empty-title check. -/
def monoGetRating (now : ℕ) (title : String) (ty : Option String)
    (cache : Cache) : MonoGet × Cache :=
  let cacheKey := monoCacheKey title ty
  match cache.lookup cacheKey with
  | some entry =>
    if isCacheEntryValid now entry then (.hit entry.data, cache)
    else (.enqueue ⟨title, ty, cacheKey⟩, cacheErase cacheKey cache)
  | none => (.enqueue ⟨title, ty, cacheKey⟩, cache)

/-! ## ApiService — modular `core/api-service.js` (shared source and dist)

The modular generation differs observably: `getRating` lowercases the key
and appends `"unknown"`, rejects a falsy title, and `processRequest`
caches every completed result — including null. -/

/-- One candidate row as consumed by the modular bundle's `FuzzyMatcher`
and `ApiService` (`title`, `type`, numeric `rating`, `votes`, `year`). -/
structure DResult where
  title : Option String
  dtype : Option String
  rating : Option ℚ
  votes : Option ℕ
  year : Option ℕ
deriving DecidableEq

/-- The result object the modular `fetchFromApi` returns
(`'N/A'` placeholders are the `none`s). -/
structure DRating where
  score : Option ℚ
  votes : Option ℕ
  title : Option String
  year : Option ℕ
deriving DecidableEq

/-- One remote response as seen by the modular `fetchFromApi`.  A thrown
error's message contains `'429'` or `'500'` exactly when the HTTP status
was 429 or 500; for transport failures the flag says whether the message
happens to contain those digits. -/
inductive DResp where
  | http (status : ℕ) (results : List DResult)
  | netErr (msgHas429or500 : Bool)

/-- The modular bundle's `FuzzyMatcher.findBestMatch`: skips falsy titles,
adds `0.1` for an exact `type === expectedType` match and `0.2` for equal
normalizations, and keeps the best candidate that reaches
`MIN_MATCH_SCORE`, returning the result object alone. -/
def distFindBestMatch (searchTitle : String) (results : List DResult)
    (expectedType : Option String) : Option DResult :=
  if results.length = 0 then none
  else
    (results.foldl (fun (st : Option DResult × ℚ) r =>
      match r.title with
      | none => st
      | some t =>
        if t = "" then st
        else
          let similarity := getSimilarity searchTitle t
          let score1 :=
            if (expectedType ≠ none ∧ expectedType ≠ some "") ∧
                r.dtype = expectedType
            then similarity + 1/10 else similarity
          let score2 :=
            if normalize searchTitle = normalize t then score1 + 1/5
            else score1
          if st.2 < score2 ∧ MIN_MATCH_SCORE ≤ score2 then (some r, score2)
          else st) (none, 0)).1

/-- The modular `ApiService.fetchFromApi`: any non-ok status throws
`Error("HTTP <status>: ...")`; the catch retries (up to 2 extra attempts,
backoff `2^retryCount * 1000` ms) only when the message contains `'429'` or
`'500'`; there is no 500 ms transport retry and aborts are not special.
Returns the result and the performed delays. -/
def fetchFromApiDist (oracle : ℕ → DResp) (title : String)
    (expectedType : Option String) (retryCount : ℕ) :
    Option DRating × List ℕ :=
  match oracle retryCount with
  | .http status results =>
    if 200 ≤ status ∧ status < 300 then
      if results.length = 0 then (none, [])
      else
        match distFindBestMatch title results expectedType with
        | none => (none, [])
        | some r =>
          (some ⟨r.rating, r.votes, r.title, r.year⟩, [])
    else
      if retryCount < 2 ∧ (status = 429 ∨ status = 500) then
        let out := fetchFromApiDist oracle title expectedType (retryCount + 1)
        (out.1, (2 ^ retryCount * 1000) :: out.2)
      else (none, [])
  | .netErr msgHas =>
    if retryCount < 2 ∧ msgHas = true then
      let out := fetchFromApiDist oracle title expectedType (retryCount + 1)
      (out.1, (2 ^ retryCount * 1000) :: out.2)
    else (none, [])
  termination_by 2 - retryCount

/-- A modular cache entry: the cached `data` may be the null result. -/
structure DCacheEntry where
  data : Option DRating
  timestamp : ℕ
deriving DecidableEq

def DCache : Type := List (String × DCacheEntry)

instance : DecidableEq DCache := by
  unfold DCache
  infer_instance

def dcacheInsert (k : String) (e : DCacheEntry) (c : DCache) : DCache :=
  (k, e) :: c.filter (fun p => decide (p.1 ≠ k))

/-- The modular `ApiService.processRequest`: fetch, then unconditionally
store `{ data: result, timestamp: now }` under the cache key and persist
(`saveCache`), even when the result is null. -/
def distProcessRequest (oracle : ℕ → DResp) (req : QueueReq) (cache : DCache)
    (now : ℕ) : Option DRating × DCache × ℕ :=
  let out := fetchFromApiDist oracle req.title req.rtype 0
  (out.1, dcacheInsert req.cacheKey ⟨out.1, now⟩ cache, 1)

/-- The modular `getRating` cache key:
`${title.toLowerCase()}_${type || 'unknown'}`. -/
def distCacheKey (title : String) (ty : Option String) : String :=
  jsToLowerStr title ++ "_" ++ (match ty with
    | some t => if t = "" then "unknown" else t
    | none => "unknown")

def isDCacheEntryValid (now : ℕ) (e : DCacheEntry) : Bool :=
  decide (e.timestamp ≠ 0) && decide (now - e.timestamp ≤ CACHE_MAX_AGE)

/-- The observable outcome of the modular `getRating` before the remote
call. -/
inductive DistGet where
  | rejected
  | hit (data : Option DRating)
  | enqueue (req : QueueReq)
deriving DecidableEq

/-- The modular `ApiService.getRating` up to its queue push: reject a falsy
(empty) title, return a valid cache hit under `distCacheKey`, otherwise
enqueue.  Whitespace-only titles are truthy and are not rejected. -/
def distGetRating (now : ℕ) (title : String) (ty : Option String)
    (cache : DCache) : DistGet :=
  if title = "" then .rejected
  else
    let cacheKey := distCacheKey title ty
    match cache.lookup cacheKey with
    | some entry =>
      if isDCacheEntryValid now entry then .hit entry.data
      else .enqueue ⟨title, ty, cacheKey⟩
    | none => .enqueue ⟨title, ty, cacheKey⟩

/-! ### C2 — the cache/de-duplication key -/

/-- C2 counterexample: the monolithic `getRating` key is the raw title with
an optional `_type` suffix — not lowercased, and without `"unknown"`. -/
theorem monoCacheKey_not_normalized :
    monoCacheKey "The Matrix" none = "The Matrix" ∧
    monoCacheKey "The Matrix" none ≠ "the matrix_unknown" ∧
    monoCacheKey "MATRIX" none ≠ monoCacheKey "matrix" none :=
  ⟨rfl, by decide, by decide⟩

/-- C2 amended: the modular `getRating` key is
`lowercase(title) ++ "_" ++ (type or "unknown")`, so titles differing only
in letter case map to the same key (the monolithic key does neither). -/
theorem distCacheKey_normalized (title : String) (ty : Option String)
    (hty : ty ≠ some "") :
    distCacheKey title ty = jsToLowerStr title ++ "_" ++ ty.getD "unknown" ∧
    (∀ t2, jsToLowerStr title = jsToLowerStr t2 →
      distCacheKey title ty = distCacheKey t2 ty) := by
  constructor
  · unfold distCacheKey
    rcases ty with _ | t
    · rfl
    · have ht : t ≠ "" := fun h => hty (by rw [h])
      dsimp only [Option.getD]
      rw [if_neg ht]
  · intro t2 h
    unfold distCacheKey
    rw [h]

/-- Witness for the amended C2 at the claim's own example. -/
theorem distCacheKey_normalized_witness :
    distCacheKey "The Matrix" none =
        jsToLowerStr "The Matrix" ++ "_" ++ (none : Option String).getD "unknown" ∧
      distCacheKey "The Matrix" none = distCacheKey "the MATRIX" none :=
  ⟨(distCacheKey_normalized "The Matrix" none (by decide)).1,
    (distCacheKey_normalized "The Matrix" none (by decide)).2 "the MATRIX"
      (by decide)⟩

/-! ### C3 — cache writes happen only on success (monolithic), but the
modular `processRequest` caches null results too. -/

/-- Every monolithic `fetchFromApi` run either resolves null with the cache
untouched and no persistence write, or resolves a rating that was written
to the cache exactly once. -/
theorem fetchMono_cases (oracle : ℕ → ApiResp) (title : String)
    (ty : Option String) (key : String) (cache : Cache) (now : ℕ) :
    ∀ r, ((fetchFromApiMono oracle title ty key cache now r).result = none ∧
      (fetchFromApiMono oracle title ty key cache now r).cache = cache ∧
      (fetchFromApiMono oracle title ty key cache now r).saveCount = 0) ∨
    (∃ rat, (fetchFromApiMono oracle title ty key cache now r).result = some rat ∧
      (fetchFromApiMono oracle title ty key cache now r).cache =
        cacheInsert key ⟨rat, now⟩ cache ∧
      (fetchFromApiMono oracle title ty key cache now r).saveCount = 1) := by
  have main : ∀ fuel r, 2 - r ≤ fuel →
      ((fetchFromApiMono oracle title ty key cache now r).result = none ∧
        (fetchFromApiMono oracle title ty key cache now r).cache = cache ∧
        (fetchFromApiMono oracle title ty key cache now r).saveCount = 0) ∨
      (∃ rat,
        (fetchFromApiMono oracle title ty key cache now r).result = some rat ∧
        (fetchFromApiMono oracle title ty key cache now r).cache =
          cacheInsert key ⟨rat, now⟩ cache ∧
        (fetchFromApiMono oracle title ty key cache now r).saveCount = 1) := by
    intro fuel
    induction fuel with
    | zero =>
      intro r hr
      rw [fetchFromApiMono]
      rcases h : oracle r with ⟨status, titles⟩ | ab
      · dsimp only
        split_ifs with h429 hretry hnok hlen
        · exact absurd hretry (by omega)
        · exact Or.inl ⟨rfl, rfl, rfl⟩
        · exact Or.inl ⟨rfl, rfl, rfl⟩
        · split
          · split
            · split_ifs with hagg
              · exact Or.inr ⟨_, rfl, rfl, rfl⟩
              · exact Or.inl ⟨rfl, rfl, rfl⟩
            · exact Or.inl ⟨rfl, rfl, rfl⟩
          · exact Or.inl ⟨rfl, rfl, rfl⟩
        · exact Or.inl ⟨rfl, rfl, rfl⟩
      · dsimp only
        split_ifs with hcond
        · exact absurd hcond.2 (by omega)
        · exact Or.inl ⟨rfl, rfl, rfl⟩
    | succ f ih =>
      intro r hr
      rw [fetchFromApiMono]
      rcases h : oracle r with ⟨status, titles⟩ | ab
      · dsimp only
        split_ifs with h429 hretry hnok hlen
        · exact ih (r + 1) (by omega)
        · exact Or.inl ⟨rfl, rfl, rfl⟩
        · exact Or.inl ⟨rfl, rfl, rfl⟩
        · split
          · split
            · split_ifs with hagg
              · exact Or.inr ⟨_, rfl, rfl, rfl⟩
              · exact Or.inl ⟨rfl, rfl, rfl⟩
            · exact Or.inl ⟨rfl, rfl, rfl⟩
          · exact Or.inl ⟨rfl, rfl, rfl⟩
        · exact Or.inl ⟨rfl, rfl, rfl⟩
      · dsimp only
        split_ifs with hcond
        · exact ih (r + 1) (by omega)
        · exact Or.inl ⟨rfl, rfl, rfl⟩
  intro r
  exact main 2 r (by omega)

/-- C3 amended (monolithic side): a resolution that ends with result null
leaves the cache untouched and performs no persistence write; a cache
entry is written (once) exactly on a successful resolution. -/
theorem mono_no_write_on_failure (oracle : ℕ → ApiResp) (title : String)
    (ty : Option String) (key : String) (cache : Cache) (now r : ℕ) :
    ((fetchFromApiMono oracle title ty key cache now r).result = none →
      (fetchFromApiMono oracle title ty key cache now r).cache = cache ∧
      (fetchFromApiMono oracle title ty key cache now r).saveCount = 0) ∧
    (∀ rat,
      (fetchFromApiMono oracle title ty key cache now r).result = some rat →
      (fetchFromApiMono oracle title ty key cache now r).cache =
        cacheInsert key ⟨rat, now⟩ cache ∧
      (fetchFromApiMono oracle title ty key cache now r).saveCount = 1) := by
  rcases fetchMono_cases oracle title ty key cache now r with
    ⟨h1, h2, h3⟩ | ⟨rat, h1, h2, h3⟩
  · refine ⟨fun _ => ⟨h2, h3⟩, fun rat2 hr2 => ?_⟩
    rw [h1] at hr2
    cases hr2
  · constructor
    · intro hn
      rw [h1] at hn
      cases hn
    · intro rat2 hr2
      rw [h1, Option.some_inj] at hr2
      subst hr2
      exact ⟨h2, h3⟩

/-- Witness for the amended C3: a 404 lookup resolves null and leaves the
cache and persistence untouched. -/
theorem mono_no_write_on_failure_witness :
    (fetchFromApiMono (fun _ => ApiResp.http 404 []) "Up" none "k" [] 7 0).cache
        = ([] : Cache) ∧
      (fetchFromApiMono (fun _ => ApiResp.http 404 []) "Up" none "k" [] 7 0).saveCount
        = 0 :=
  (mono_no_write_on_failure (fun _ => ApiResp.http 404 []) "Up" none "k" [] 7 0).1
    (by rw [fetchFromApiMono]; norm_num)

/-- C3 counterexample: the modular `processRequest` caches a completed
request unconditionally — a failed resolution (null result) still creates a
cache entry (with `data = null`) and performs a persistence write. -/
theorem dist_caches_null_result :
    distProcessRequest (fun _ => DResp.http 200 [])
        ⟨"Inception", none, "inception_unknown"⟩ [] 5 =
      (none, [("inception_unknown", ⟨none, 5⟩)], 1) ∧
    ([("inception_unknown", (⟨none, 5⟩ : DCacheEntry))] : DCache) ≠ [] := by
  constructor
  · rw [distProcessRequest, fetchFromApiDist]
    norm_num
    rfl
  · decide

/-! ### C4 — retry policy of the remote lookup -/

/-- C4 amended (monolithic `fetchFromApi`): HTTP 429 is retried twice with
1000 ms then 2000 ms backoff and then resolves null; a non-abort transport
failure on the first attempt is retried exactly once after 500 ms (the retry
budget is shared, so a second transport failure resolves null); an abort is
not retried; no branch propagates an error. -/
theorem mono_retry_policy :
    (∀ (titles : ℕ → List SearchResult) (title : String) (ty : Option String)
        (key : String) (cache : Cache) (now : ℕ),
      fetchFromApiMono (fun n => ApiResp.http 429 (titles n)) title ty key
        cache now 0 = ⟨none, cache, 0, [1000, 2000]⟩) ∧
    (∀ (oracle : ℕ → ApiResp) (title : String) (ty : Option String)
        (key : String) (cache : Cache) (now : ℕ),
      oracle 0 = ApiResp.netErr false →
      (fetchFromApiMono oracle title ty key cache now 0).delays =
        500 :: (fetchFromApiMono oracle title ty key cache now 1).delays ∧
      (fetchFromApiMono oracle title ty key cache now 0).result =
        (fetchFromApiMono oracle title ty key cache now 1).result) ∧
    (∀ (oracle : ℕ → ApiResp) (title : String) (ty : Option String)
        (key : String) (cache : Cache) (now : ℕ),
      oracle 0 = ApiResp.netErr false → oracle 1 = ApiResp.netErr false →
      fetchFromApiMono oracle title ty key cache now 0 =
        ⟨none, cache, 0, [500]⟩) ∧
    (∀ (oracle : ℕ → ApiResp) (title : String) (ty : Option String)
        (key : String) (cache : Cache) (now : ℕ),
      oracle 0 = ApiResp.netErr true →
      fetchFromApiMono oracle title ty key cache now 0 =
        ⟨none, cache, 0, []⟩) := by
  refine ⟨?_, ?_, ?_, ?_⟩
  · intro titles title ty key cache now
    rw [fetchFromApiMono]
    dsimp only
    rw [if_pos rfl, if_pos (by omega), fetchFromApiMono]
    dsimp only
    rw [if_pos rfl, if_pos (by omega), fetchFromApiMono]
    dsimp only
    rw [if_pos rfl, if_neg (by omega)]
    norm_num
  · intro oracle title ty key cache now h0
    rw [fetchFromApiMono, h0]
    dsimp only
    rw [if_pos ⟨rfl, by omega⟩]
    exact ⟨rfl, rfl⟩
  · intro oracle title ty key cache now h0 h1
    rw [fetchFromApiMono, h0]
    dsimp only
    rw [if_pos ⟨rfl, by omega⟩, fetchFromApiMono, h1]
    dsimp only
    rw [if_neg (by omega)]
  · intro oracle title ty key cache now h0
    rw [fetchFromApiMono, h0]
    dsimp only
    rw [if_neg (by simp)]

/-- Witness for the amended C4 at concrete oracles. -/
theorem mono_retry_policy_witness :
    fetchFromApiMono (fun _ => ApiResp.http 429 []) "Up" none "k" [] 7 0 =
        ⟨none, [], 0, [1000, 2000]⟩ ∧
      fetchFromApiMono (fun _ => ApiResp.netErr false) "Up" none "k" [] 7 0 =
        ⟨none, [], 0, [500]⟩ ∧
      fetchFromApiMono (fun _ => ApiResp.netErr true) "Up" none "k" [] 7 0 =
        ⟨none, [], 0, []⟩ :=
  ⟨mono_retry_policy.1 (fun _ => []) "Up" none "k" [] 7,
    mono_retry_policy.2.2.1 (fun _ => ApiResp.netErr false) "Up" none "k" [] 7
      rfl rfl,
    mono_retry_policy.2.2.2 (fun _ => ApiResp.netErr true) "Up" none "k" [] 7
      rfl⟩

/-- C4 counterexample: in the modular `fetchFromApi`, a transport failure
whose message does not contain `'429'`/`'500'` is not retried at all — the
lookup resolves null immediately, with no 500 ms delay. -/
theorem dist_transport_failure_not_retried :
    fetchFromApiDist (fun _ => DResp.netErr false) "Inception" none 0 =
        (none, []) ∧
      (fetchFromApiDist (fun _ => DResp.netErr false) "Inception" none 0).2 ≠
        [500] := by
  have h : fetchFromApiDist (fun _ => DResp.netErr false) "Inception" none 0 =
      (none, []) := by
    rw [fetchFromApiDist]
    norm_num
  exact ⟨h, by rw [h]; decide⟩

/-! ### C8 — empty and whitespace-only titles -/

/-- C8 amended: the modular `getRating` rejects exactly the falsy (empty)
title — returning null immediately, with no enqueue — while the monolithic
`getRating` performs no title check at all and enqueues even the empty
title. -/
theorem empty_title_reject (now : ℕ) (ty : Option String) (cache : DCache) :
    distGetRating now "" ty cache = DistGet.rejected ∧
    (monoGetRating now "" ty []).1 =
      MonoGet.enqueue ⟨"", ty, monoCacheKey "" ty⟩ := by
  constructor
  · rw [distGetRating, if_pos rfl]
  · rfl

/-- C8 counterexample: a whitespace-only title is truthy, so the modular
`getRating` does not reject it — the query is enqueued (and will reach the
network), contradicting the claim. -/
theorem whitespace_title_enqueued :
    distGetRating 0 " " none [] = DistGet.enqueue ⟨" ", none, " _unknown"⟩ ∧
      distGetRating 0 " " none [] ≠ DistGet.rejected := by
  constructor <;> decide

/-! ### C6 — the scheduler never exceeds `MAX_CONCURRENT_REQUESTS`

`processQueue` of the monolithic bundle: a `while` loop that shifts the
queue head and starts `processRequest` (whose synchronous prefix increments
`activeRequests` before its first `await`) as long as
`activeRequests < MAX_CONCURRENT_REQUESTS`.  `processRequest` decrements
`activeRequests` when the remote call settles and re-drains.  The event
model interleaves arbitrary enqueues and completions. -/

structure SchedState where
  queue : List QueueReq
  active : ℕ
deriving DecidableEq

/-- `ApiService.processQueue`: drain while the queue is non-empty and the
concurrency bound is strict; each drained request immediately increments
`activeRequests`. -/
def drain (s : SchedState) : SchedState :=
  if s.queue ≠ [] ∧ s.active < MAX_CONCURRENT_REQUESTS then
    drain { queue := s.queue.tail, active := s.active + 1 }
  else s
  termination_by s.queue.length
  decreasing_by
    rcases s with ⟨q, a⟩
    rcases q with _ | ⟨x, t⟩
    · simp at *
    · simp

/-- An external event: a new `getRating` miss pushes onto the queue and
drains; a settled remote call decrements `activeRequests` and re-drains
when the queue is non-empty. -/
inductive SchedEvent where
  | enqueue (r : QueueReq)
  | complete

def schedStep (s : SchedState) : SchedEvent → SchedState
  | .enqueue r => drain { s with queue := s.queue ++ [r] }
  | .complete =>
    if s.active = 0 then s
    else
      let s2 : SchedState := { s with active := s.active - 1 }
      if s2.queue ≠ [] then drain s2 else s2

def schedRun (events : List SchedEvent) : SchedState :=
  events.foldl schedStep ⟨[], 0⟩

theorem drain_active_le (s : SchedState)
    (h : s.active ≤ MAX_CONCURRENT_REQUESTS) :
    (drain s).active ≤ MAX_CONCURRENT_REQUESTS := by
  have main : ∀ n (s : SchedState), s.queue.length ≤ n →
      s.active ≤ MAX_CONCURRENT_REQUESTS →
      (drain s).active ≤ MAX_CONCURRENT_REQUESTS := by
    intro n
    induction n with
    | zero =>
      intro s hlen hact
      rw [drain]
      have hq : s.queue = [] := List.length_eq_zero.mp (by omega)
      rw [if_neg (by simp [hq])]
      exact hact
    | succ n ih =>
      intro s hlen hact
      rw [drain]
      by_cases hc : s.queue ≠ [] ∧ s.active < MAX_CONCURRENT_REQUESTS
      · rw [if_pos hc]
        apply ih
        · have : s.queue.length ≠ 0 := by
            simpa [List.length_eq_zero] using hc.1
          simp only [List.length_tail]
          omega
        · have := hc.2
          dsimp only
          omega
      · rw [if_neg hc]
        exact hact
  exact main s.queue.length s (le_refl _) h

theorem schedStep_active_le (s : SchedState) (e : SchedEvent)
    (h : s.active ≤ MAX_CONCURRENT_REQUESTS) :
    (schedStep s e).active ≤ MAX_CONCURRENT_REQUESTS := by
  rcases e with r | _
  · exact drain_active_le _ h
  · rw [schedStep]
    by_cases h0 : s.active = 0
    · rw [if_pos h0]
      exact h
    · rw [if_neg h0]
      dsimp only
      by_cases hq : s.queue ≠ []
      · rw [if_pos hq]
        exact drain_active_le _ (by dsimp only; omega)
      · rw [if_neg hq]
        dsimp only
        omega

/-- C6: along every interleaving of enqueue and completion events — in
particular a burst of 50 enqueues — the number of simultaneously in-flight
remote calls never exceeds `MAX_CONCURRENT_REQUESTS = 5`. -/
theorem scheduler_concurrency_bound :
    (∀ (events : List SchedEvent) (k : ℕ),
      ((events.take k).foldl schedStep ⟨[], 0⟩).active ≤
        MAX_CONCURRENT_REQUESTS) ∧
    (∀ r, (schedRun (List.replicate 50 (SchedEvent.enqueue r))).active ≤
      MAX_CONCURRENT_REQUESTS) := by
  have main : ∀ (l : List SchedEvent) (s : SchedState),
      s.active ≤ MAX_CONCURRENT_REQUESTS →
      (l.foldl schedStep s).active ≤ MAX_CONCURRENT_REQUESTS := by
    intro l
    induction l with
    | nil => exact fun s h => h
    | cons e t ih =>
      intro s h
      rw [List.foldl_cons]
      exact ih _ (schedStep_active_le s e h)
  refine ⟨fun events k => main _ _ ?_, fun r => main _ _ ?_⟩ <;>
    · show 0 ≤ MAX_CONCURRENT_REQUESTS
      omega

/-! ### C7 — the two rate limiters

The monolithic `waitForRateLimit` enforces only the 9-per-trailing-second
window (it never consults `REQUEST_DELAY`); the modular `waitForRateLimit`
enforces only the `REQUEST_DELAY` spacing (it records `requestTimes` but
never waits on them).  Both are modelled sequentially: each call happens
`δ ≥ 0` ms after the previous call finished, so `now = lastStart + δ`. -/

/-- `Math.min(...times)` for a non-empty array (`0` for an empty one, a
case the source never hits because the length test precedes it). -/
def listMin : List ℕ → ℕ
  | [] => 0
  | x :: xs => xs.foldl min x

theorem foldl_min_mem (xs : List ℕ) : ∀ x : ℕ, xs.foldl min x ∈ x :: xs := by
  induction xs with
  | nil => exact fun x => List.mem_singleton.mpr rfl
  | cons y t ih =>
    intro x
    rw [List.foldl_cons]
    rcases List.mem_cons.mp (ih (min x y)) with h | h
    · rw [h]
      rcases min_choice x y with hm | hm <;> rw [hm] <;> simp
    · simp [List.mem_cons_of_mem _ (List.mem_cons_of_mem _ h)]

theorem foldl_min_le (xs : List ℕ) : ∀ x : ℕ, ∀ a ∈ x :: xs, xs.foldl min x ≤ a := by
  induction xs with
  | nil =>
    intro x a ha
    rw [List.mem_singleton.mp ha]
    exact le_refl _
  | cons y t ih =>
    intro x a ha
    rw [List.foldl_cons]
    rcases List.mem_cons.mp ha with h1 | ha2
    · rw [h1]
      exact le_trans (ih (min x y) _ (List.mem_cons_self _ _)) (Nat.min_le_left x y)
    · rcases List.mem_cons.mp ha2 with h2 | ha3
      · rw [h2]
        exact le_trans (ih (min x y) _ (List.mem_cons_self _ _)) (Nat.min_le_right x y)
      · exact ih (min x y) a (List.mem_cons_of_mem _ ha3)

theorem listMin_mem {l : List ℕ} (h : l ≠ []) : listMin l ∈ l := by
  rcases l with _ | ⟨x, xs⟩
  · exact absurd rfl h
  · exact foldl_min_mem xs x

theorem listMin_le {l : List ℕ} (a : ℕ) (ha : a ∈ l) : listMin l ≤ a := by
  rcases l with _ | ⟨x, xs⟩
  · cases ha
  · exact foldl_min_le xs x a ha

/-- In a nonincreasing (most-recent-first) list, positions further back
hold older (smaller or equal) values. -/
theorem pairwise_ge_get_mono {l : List ℕ}
    (hs : l.Pairwise (fun a b => b ≤ a)) :
    ∀ i j ti tj, i ≤ j → l.get? i = some ti → l.get? j = some tj → tj ≤ ti := by
  induction l with
  | nil => intro i j ti tj _ hi; cases hi
  | cons x t ih =>
    intro i j ti tj hij hi hj
    rcases i with _ | i
    · rw [List.get?_cons_zero] at hi
      cases hi
      rcases j with _ | j
      · rw [List.get?_cons_zero] at hj
        cases hj
        exact le_refl _
      · rw [List.get?_cons_succ] at hj
        exact (List.pairwise_cons.mp hs).1 tj (List.get?_mem hj)
    · rcases j with _ | j
      · omega
      · rw [List.get?_cons_succ] at hi hj
        exact ih (List.Pairwise.of_cons hs) i j ti tj (by omega) hi hj

theorem pairwise_ge_all_le_head {x : ℕ} {t : List ℕ}
    (hs : (x :: t).Pairwise (fun a b => b ≤ a)) :
    ∀ b ∈ x :: t, b ≤ x := by
  intro b hb
  rcases List.mem_cons.mp hb with rfl | hb2
  · exact le_refl _
  · exact (List.pairwise_cons.mp hs).1 b hb2

/-- For a nonincreasing list and an upward-closed predicate, `filter` is
`takeWhile`: the kept elements form a prefix. -/
theorem filter_eq_takeWhile_of_sorted (p : ℕ → Bool) :
    ∀ (l : List ℕ), l.Pairwise (fun a b => b ≤ a) →
    (∀ a b : ℕ, b ≤ a → p b = true → p a = true) →
    l.filter p = l.takeWhile p := by
  intro l
  induction l with
  | nil => intro _ _; rfl
  | cons x t ih =>
    intro hs hmono
    rcases hx : p x with _ | _
    · rw [List.filter_cons_of_neg (by simp [hx]),
        List.takeWhile_cons_of_neg (by simp [hx])]
      rw [List.filter_eq_nil_iff.mpr]
      intro b hb
      rcases hpb : p b with _ | _
      · simp
      · have := hmono x b ((List.pairwise_cons.mp hs).1 b hb) hpb
        rw [this] at hx
        cases hx
    · rw [List.filter_cons_of_pos (by simp [hx]),
        List.takeWhile_cons_of_pos (by simp [hx]),
        ih (List.Pairwise.of_cons hs) hmono]

theorem takeWhile_get? (p : ℕ → Bool) (l : List ℕ) (i : ℕ)
    (hi : i < (l.takeWhile p).length) :
    (l.takeWhile p).get? i = l.get? i := by
  conv_rhs => rw [← List.takeWhile_append_dropWhile p l]
  rw [List.get?_eq_getElem?, List.get?_eq_getElem?, List.getElem?_append_left hi]

theorem takeWhile_length_ge (p : ℕ → Bool) :
    ∀ (n : ℕ) (l : List ℕ), n ≤ l.length →
    (∀ i < n, ∀ t, l.get? i = some t → p t = true) →
    n ≤ (l.takeWhile p).length := by
  intro n
  induction n with
  | zero => exact fun l _ _ => Nat.zero_le _
  | succ m ih =>
    intro l hl hall
    rcases l with _ | ⟨x, t⟩
    · simp at hl
    · have hx : p x = true := hall 0 (by omega) x rfl
      rw [List.takeWhile_cons_of_pos hx]
      have := ih t (by simp at hl ⊢; omega) (fun i hi u hu =>
        hall (i + 1) (by omega) u (by rwa [List.get?_cons_succ]))
      simp only [List.length_cons]
      omega

/-- State of the monolithic `waitForRateLimit`: the retained
`this.requestTimes` plus the ghost full list of recorded starts
(most recent first). -/
structure RateState where
  requestTimes : List ℕ
  history : List ℕ
deriving DecidableEq

/-- One sequential call of the monolithic `waitForRateLimit`, `δ` ms after
the previous call finished: drop the times older than one second; if nine
or more remain, sleep until `10` ms past the moment the oldest one leaves
the window; record the start. -/
def rateStep (s : RateState) (δ : ℕ) : RateState :=
  let now := s.history.head?.getD 0 + δ
  let times := s.requestTimes.filter (fun t => decide (now - t < 1000))
  if 9 ≤ times.length then
    let oldest := listMin times
    let waitTime := 1000 - (now - oldest) + 10
    let start := if 0 < waitTime then now + waitTime else now
    { requestTimes := start :: times, history := start :: s.history }
  else { requestTimes := now :: times, history := now :: s.history }

def rateRun (deltas : List ℕ) : RateState := deltas.foldl rateStep ⟨[], []⟩

/-- At most nine starts in any trailing 1000 ms window, phrased on the
most-recent-first history: a start and the start nine requests before it
are at least 1000 ms apart. -/
def windowProp (h : List ℕ) : Prop :=
  ∀ k t0 t9, h.get? k = some t0 → h.get? (k + 9) = some t9 → t9 + 1000 ≤ t0

/-- Invariant of the sequential monolithic limiter: the history is
nonincreasing, the retained times are exactly the history elements within
one second of some instant at or before the last start, and the window
property holds. -/
def RateInv (s : RateState) : Prop :=
  s.history.Pairwise (fun a b => b ≤ a) ∧
  (∃ cut, cut ≤ s.history.head?.getD 0 ∧
    s.requestTimes = s.history.filter (fun t => decide (cut < t + 1000))) ∧
  windowProp s.history

theorem filter_subsume {l : List ℕ} {p q : ℕ → Bool}
    (h : ∀ a, p a = true → q a = true) :
    (l.filter q).filter p = l.filter p := by
  induction l with
  | nil => rfl
  | cons x t ih =>
    rcases hq : q x with _ | _
    · rcases hp : p x with _ | _
      · rw [List.filter_cons_of_neg (by simp [hq]), List.filter_cons_of_neg (by simp [hp]), ih]
      · exact absurd (h x hp) (by simp [hq])
    · rcases hp : p x with _ | _
      · rw [List.filter_cons_of_pos hq, List.filter_cons_of_neg (by simp [hp]),
          List.filter_cons_of_neg (by simp [hp]), ih]
      · rw [List.filter_cons_of_pos hq, List.filter_cons_of_pos hp,
          List.filter_cons_of_pos hp, ih]

theorem head_ge_mem {l : List ℕ} (hpw : l.Pairwise (fun a b => b ≤ a)) :
    ∀ x ∈ l, x ≤ l.head?.getD 0 := by
  rcases l with _ | ⟨h0, t⟩
  · intro x hx; cases hx
  · intro x hx
    simp only [List.head?_cons, Option.getD_some]
    exact pairwise_ge_all_le_head hpw x hx

/-- `rateStep` with its two live branches spelled out (the inner
`if (waitTime > 0)` of the source is always taken: `waitTime ≥ 10`). -/
theorem rateStep_spec (s : RateState) (δ now : ℕ) (times : List ℕ)
    (hnow : now = s.history.head?.getD 0 + δ)
    (ht : times = s.requestTimes.filter (fun t => decide (now - t < 1000))) :
    rateStep s δ =
      if 9 ≤ times.length then
        ⟨(now + (1000 - (now - listMin times) + 10)) :: times,
         (now + (1000 - (now - listMin times) + 10)) :: s.history⟩
      else ⟨now :: times, now :: s.history⟩ := by
  simp only [rateStep]
  rw [← hnow, ← ht]
  rw [if_pos (show 0 < 1000 - (now - listMin times) + 10 by omega)]

/-- One call of the monolithic `waitForRateLimit` preserves the limiter
invariant; in particular the 9-per-second window property persists. -/
theorem rateStep_inv (s : RateState) (δ : ℕ) (hinv : RateInv s) :
    RateInv (rateStep s δ) := by
  obtain ⟨hpw, ⟨cut, hcut, htimes⟩, hwin⟩ := hinv
  have hmemle : ∀ x ∈ s.history, x ≤ s.history.head?.getD 0 := head_ge_mem hpw
  have hspec := rateStep_spec s δ (s.history.head?.getD 0 + δ)
    (s.requestTimes.filter
      (fun t => decide (s.history.head?.getD 0 + δ - t < 1000))) rfl rfl
  set now := s.history.head?.getD 0 + δ with hnow
  set times := s.requestTimes.filter (fun t => decide (now - t < 1000)) with htdef
  have hft : times = s.history.filter (fun t => decide (now - t < 1000)) := by
    rw [htdef, htimes]
    apply filter_subsume
    intro a ha
    simp only [decide_eq_true_eq] at ha ⊢
    omega
  have hmono : ∀ a b : ℕ, b ≤ a →
      (decide (now - b < 1000) : Bool) = true →
      (decide (now - a < 1000) : Bool) = true := by
    intro a b hba hb
    simp only [decide_eq_true_eq] at hb ⊢
    omega
  have htw : times = s.history.takeWhile (fun t => decide (now - t < 1000)) := by
    rw [hft]
    exact filter_eq_takeWhile_of_sorted _ s.history hpw hmono
  have hlen : times.length ≤ 9 := by
    by_contra hlen
    push_neg at hlen
    have h0 := takeWhile_get? (fun t => decide (now - t < 1000)) s.history 0
      (by rw [← htw]; omega)
    have h9 := takeWhile_get? (fun t => decide (now - t < 1000)) s.history 9
      (by rw [← htw]; omega)
    rw [← htw] at h0 h9
    rcases ht0 : times.get? 0 with _ | t0
    · rw [List.get?_eq_none] at ht0; omega
    rcases ht9 : times.get? 9 with _ | t9
    · rw [List.get?_eq_none] at ht9; omega
    have hh0 : s.history.get? 0 = some t0 := by rw [← h0, ht0]
    have hh9 : s.history.get? 9 = some t9 := by rw [← h9, ht9]
    have hw09 := hwin 0 t0 t9 hh0 hh9
    have ht9m : t9 ∈ times := List.get?_mem ht9
    rw [hft] at ht9m
    have hpred := (List.mem_filter.mp ht9m).2
    simp only [decide_eq_true_eq] at hpred
    have ht0le : t0 ≤ s.history.head?.getD 0 := hmemle t0 (List.get?_mem hh0)
    omega
  rcases le_or_lt 9 times.length with hge | hlt
  · -- window full: the call sleeps until ten past the oldest request
    rw [hspec, if_pos hge]
    have h9 : times.length = 9 := le_antisymm hlen hge
    have hne : times ≠ [] := by
      intro h
      rw [h] at h9
      simp at h9
    have hmem : listMin times ∈ times := listMin_mem hne
    have hmemf : listMin times ∈
        s.history.filter (fun t => decide (now - t < 1000)) := by
      rw [← hft]; exact hmem
    have hmemh : listMin times ∈ s.history := (List.mem_filter.mp hmemf).1
    have hpred : now - listMin times < 1000 := by
      have := (List.mem_filter.mp hmemf).2
      simpa using this
    have hminle : listMin times ≤ s.history.head?.getD 0 := hmemle _ hmemh
    refine ⟨?_, ⟨now, ?_, ?_⟩, ?_⟩
    · dsimp only
      refine List.pairwise_cons.mpr ⟨?_, hpw⟩
      intro b hb
      have := hmemle b hb
      omega
    · dsimp only
      simp only [List.head?_cons, Option.getD_some]
      omega
    · dsimp only
      rw [List.filter_cons_of_pos (by simp only [decide_eq_true_eq]; omega)]
      congr 1
      rw [hft]
      exact List.filter_congr (fun a _ => by
        show (decide (now - a < 1000) : Bool) = decide (now < a + 1000)
        rw [decide_eq_decide]
        omega)
    · dsimp only
      intro k t0 t9 hk0 hk9
      rcases k with _ | k
      · rw [List.get?_cons_zero] at hk0
        injection hk0 with hk0
        rw [show (0 + 9 : ℕ) = 8 + 1 by norm_num, List.get?_cons_succ] at hk9
        obtain ⟨j, hj⟩ := List.get?_of_mem hmem
        have hjlt : j < times.length := by
          by_contra hge2
          rw [List.get?_eq_none.mpr (le_of_not_lt hge2)] at hj
          cases hj
        have hjh : s.history.get? j = some (listMin times) := by
          rw [← takeWhile_get? (fun t => decide (now - t < 1000)) s.history j
            (by rw [← htw]; exact hjlt), ← htw]
          exact hj
        have ht9le : t9 ≤ listMin times :=
          pairwise_ge_get_mono hpw j 8 _ _ (by omega) hjh hk9
        omega
      · rw [List.get?_cons_succ] at hk0
        rw [show (k + 1 + 9 : ℕ) = k + 9 + 1 by omega, List.get?_cons_succ] at hk9
        exact hwin k t0 t9 hk0 hk9
  · -- window not full: the request starts right away
    rw [hspec, if_neg (by omega)]
    refine ⟨?_, ⟨now, ?_, ?_⟩, ?_⟩
    · dsimp only
      refine List.pairwise_cons.mpr ⟨?_, hpw⟩
      intro b hb
      have := hmemle b hb
      omega
    · dsimp only
      simp only [List.head?_cons, Option.getD_some]
      omega
    · dsimp only
      rw [List.filter_cons_of_pos (by simp only [decide_eq_true_eq]; omega)]
      congr 1
      rw [hft]
      exact List.filter_congr (fun a _ => by
        show (decide (now - a < 1000) : Bool) = decide (now < a + 1000)
        rw [decide_eq_decide]
        omega)
    · dsimp only
      intro k t0 t9 hk0 hk9
      rcases k with _ | k
      · rw [List.get?_cons_zero] at hk0
        injection hk0 with hk0
        rw [show (0 + 9 : ℕ) = 8 + 1 by norm_num, List.get?_cons_succ] at hk9
        by_contra hcon
        push_neg at hcon
        have h8 : 8 < s.history.length := by
          by_contra hx
          rw [List.get?_eq_none.mpr (le_of_not_lt hx)] at hk9
          cases hk9
        have hall : ∀ i < 9, ∀ t, s.history.get? i = some t →
            (fun t => decide (now - t < 1000)) t = true := by
          intro i hi t hti
          have := pairwise_ge_get_mono hpw i 8 t t9 (by omega) hti hk9
          simp only [decide_eq_true_eq]
          omega
        have h9le := takeWhile_length_ge (fun t => decide (now - t < 1000)) 9
          s.history (by omega) hall
        rw [← htw] at h9le
        omega
      · rw [List.get?_cons_succ] at hk0
        rw [show (k + 1 + 9 : ℕ) = k + 9 + 1 by omega, List.get?_cons_succ] at hk9
        exact hwin k t0 t9 hk0 hk9

theorem rateRun_inv (deltas : List ℕ) : RateInv (rateRun deltas) := by
  rw [rateRun]
  have main : ∀ (l : List ℕ) (s : RateState), RateInv s →
      RateInv (l.foldl rateStep s) := by
    intro l
    induction l with
    | nil => exact fun s h => h
    | cons d t ih =>
      intro s h
      rw [List.foldl_cons]
      exact ih _ (rateStep_inv s d h)
  apply main
  refine ⟨List.Pairwise.nil, ⟨0, le_refl 0, rfl⟩, ?_⟩
  intro k t0 t9 h0 _
  simp at h0

/-! The modular (`core/api-service.js`) `waitForRateLimit`: it sleeps only
until `REQUEST_DELAY` ms past `lastRequestTime`, then records the start;
the `requestTimes` array is maintained but never consulted for waiting. -/

structure DistRateState where
  lastRequestTime : ℕ
  requestTimes : List ℕ
  history : List ℕ
deriving DecidableEq

def distRateStep (s : DistRateState) (δ : ℕ) : DistRateState :=
  let now := s.lastRequestTime + δ
  let timeSinceLastRequest := now - s.lastRequestTime
  let start := if timeSinceLastRequest < REQUEST_DELAY
               then now + (REQUEST_DELAY - timeSinceLastRequest) else now
  let times := (s.requestTimes ++ [start]).filter fun t => decide (start - t < 1000)
  ⟨start, times, start :: s.history⟩

def distRateRun (deltas : List ℕ) : DistRateState :=
  deltas.foldl distRateStep ⟨0, [], []⟩

/-- Consecutive request starts (most recent first) are at least
`REQUEST_DELAY` ms apart. -/
def distSpacing (h : List ℕ) : Prop :=
  ∀ k t0 t1, h.get? k = some t0 → h.get? (k + 1) = some t1 →
    t1 + REQUEST_DELAY ≤ t0

def DistInv (s : DistRateState) : Prop :=
  (∀ t0, s.history.head? = some t0 → t0 ≤ s.lastRequestTime) ∧
  distSpacing s.history

theorem distRateStep_spec (s : DistRateState) (δ : ℕ) :
    ∃ start : ℕ,
      distRateStep s δ =
        ⟨start,
         (s.requestTimes ++ [start]).filter (fun t => decide (start - t < 1000)),
         start :: s.history⟩ ∧
      s.lastRequestTime + REQUEST_DELAY ≤ start := by
  simp only [distRateStep]
  refine ⟨_, rfl, ?_⟩
  split
  · simp only [REQUEST_DELAY] at *
    omega
  · simp only [REQUEST_DELAY] at *
    omega

theorem distRateStep_inv (s : DistRateState) (δ : ℕ) (h : DistInv s) :
    DistInv (distRateStep s δ) := by
  obtain ⟨hhd, hsp⟩ := h
  obtain ⟨start, heq, hge⟩ := distRateStep_spec s δ
  rw [heq]
  constructor
  · intro t0 h0
    simp only [List.head?_cons] at h0
    injection h0 with h0
    rw [← h0]
  · intro k t0 t1 hk0 hk1
    rcases k with _ | k
    · rw [List.get?_cons_zero] at hk0
      injection hk0 with hk0
      rw [List.get?_cons_succ] at hk1
      rcases hh : s.history with _ | ⟨h0, hrest⟩
      · rw [hh] at hk1
        simp at hk1
      · rw [hh, List.get?_cons_zero] at hk1
        injection hk1 with hk1
        have hh0 : h0 ≤ s.lastRequestTime := hhd h0 (by rw [hh, List.head?_cons])
        rw [← hk0, ← hk1]
        exact le_trans (Nat.add_le_add_right hh0 _) hge
    · rw [List.get?_cons_succ] at hk0 hk1
      exact hsp k t0 t1 hk0 hk1

theorem distRateRun_spacing (deltas : List ℕ) :
    distSpacing (distRateRun deltas).history := by
  rw [distRateRun]
  have main : ∀ (l : List ℕ) (s : DistRateState), DistInv s →
      DistInv (l.foldl distRateStep s) := by
    intro l
    induction l with
    | nil => exact fun s h => h
    | cons d t ih =>
      intro s h
      rw [List.foldl_cons]
      exact ih _ (distRateStep_inv s d h)
  refine (main deltas ⟨0, [], []⟩ ⟨?_, ?_⟩).2
  · intro t0 h0
    simp at h0
  · intro k t0 t1 h0 _
    simp at h0

/-- C7 (amended): the two `waitForRateLimit` implementations enforce the two
rate limits separately, not jointly.  The monolithic one guarantees only the
sliding-window cap — on every sequential execution, a request start and the
start nine requests earlier are at least 1000 ms apart — and never imposes
the `REQUEST_DELAY` spacing; the modular one guarantees only that
consecutive request starts are at least `REQUEST_DELAY = 110` ms apart and
never enforces the 9-per-second window. -/
theorem rate_limits_separate (deltas : List ℕ) :
    windowProp (rateRun deltas).history ∧
    distSpacing (distRateRun deltas).history :=
  ⟨(rateRun_inv deltas).2.2, distRateRun_spacing deltas⟩

/-- C7 counterexample to the original claim: the monolithic limiter lets two
requests start at the same millisecond (`rateRun [5, 0]` records starts
`[5, 5]`, violating the claimed 110 ms spacing), and the modular limiter
packs ten request starts into a single trailing 1000 ms window
(`distRateRun` on ten back-to-back calls), violating the claimed
9-per-second cap — so the conjunction of both constraints holds in neither
implementation. -/
theorem rate_limits_not_joint :
    ((rateRun [5, 0]).history = [5, 5] ∧ ¬ (5 + REQUEST_DELAY ≤ 5)) ∧
    ¬ windowProp (distRateRun (List.replicate 10 0)).history := by
  refine ⟨⟨by decide, by decide⟩, ?_⟩
  intro hw
  have h := hw 0 1100 110 (by decide) (by decide)
  omega

theorem rate_limits_separate_witness :
    (0 : ℕ) + 1000 ≤ 1010 ∧ (110 : ℕ) + REQUEST_DELAY ≤ 220 :=
  ⟨(rate_limits_separate (List.replicate 10 0)).1 0 1010 0 (by decide) (by decide),
   (rate_limits_separate [0, 0]).2 0 220 110 (by decide) (by decide)⟩

end IMDBuddy
